import Mathlib

/-!
# Password generation under a composition policy

A shallow embedding of the Go package `passwords` (`policy.go`, `generate.go`)
and a verification of its documented behaviour.

Modelling conventions.

* A Go `string` (and the `[]byte` buffer it is built from) is a `List Char`.
  Go's `len` counts UTF-8 bytes, which is `len` below; the alphabets of this
  package are ASCII, so for them a byte index is a character index.
* Go's `int` is taken to be 64 bits wide: `wrapInt` is applied wherever the
  source does arithmetic that can leave that range.
* `map[K]struct{}` is a duplicate-free list, extended with `List.insert`.
* `make([]byte, n)` succeeds only for `0 ≤ n ≤ maxAlloc`; the limit `maxAlloc`
  of the run-time system depends on the platform and is a parameter of
  `Generate`.
* `rand.Int(g.reader, max)` is the only use of the reader.  A `Reader` gives
  the outcome of the `k`-th such call as a function of the requested bound, and
  every call is recorded in a log that is threaded through the computation.
* A run either returns, panics, or is still inside the retry loop of
  `randIntExcept` when the iteration budget `fuel` is used up.
-/

namespace Passwords

/-! ## Strings and integers -/

/-- Go's `len(s)`: the number of bytes of the UTF-8 encoding of `s`. -/
def len (s : List Char) : Int :=
  ((s.map Char.utf8Size).sum : Nat)

/-- The value of a 64-bit signed `int` after arithmetic wrap-around. -/
def wrapInt (x : Int) : Int :=
  (x + 2 ^ 63) % 2 ^ 64 - 2 ^ 63

/-- Indexing `s[i]`; `none` stands for the run-time panic on an index out of range. -/
def index (s : List Char) (i : Int) : Option Char :=
  if i < 0 then none else s.get? i.toNat

/-- The assignment `b[i] = c`; `none` stands for the run-time panic on an index out of range. -/
def store (b : List Char) (i : Int) (c : Char) : Option (List Char) :=
  if 0 ≤ i ∧ i < (b.length : Int) then some (b.set i.toNat c) else none

/-- The allocation `make([]byte, length)`: zero bytes.  `none` stands for the
crash of the run-time system when the length is negative or above `maxAlloc`,
the largest number of bytes it can allocate (`makeslice: len out of range`, or
out of memory); `maxAlloc` depends on the platform and on the memory there is. -/
def makeBytes (maxAlloc : Int) (length : Int) : Option (List Char) :=
  if length < 0 ∨ maxAlloc < length then none
  else some (List.replicate length.toNat (Char.ofNat 0))

/-! ## policy.go -/

/-- The constant `LowercaseLetters`. -/
def LowercaseLetters : List Char := "abcdefghijklmnopqrstuvwxyz".toList

/-- The constant `UppercaseLetters`. -/
def UppercaseLetters : List Char := "ABCDEFGHIJKLMNOPQRSTUVWXYZ".toList

/-- The constant `Digits`. -/
def Digits : List Char := "0123456789".toList

/-- The constant `Symbols`. -/
def Symbols : List Char := "~!@#$%^&*()_+`-=\x7b\x7d|[]\\:\"<>?,./".toList

/-- Errors, one constructor per place of the source that creates one; a `cause`
argument is the error wrapped with `%w`. -/
inductive Error where
  /-- The error returned by `rand.Int` when the reader fails. -/
  | readerFailure
  /-- Created at generate.go:151. -/
  | randInt (cause : Error)
  /-- Created at generate.go:100. -/
  | randomElement (n : Int) (cause : Error)
  /-- Created at generate.go:115. -/
  | pickLengthDraw (n : Int) (cause : Error)
  /-- Created at generate.go:123. -/
  | noFreeNumber (maxExcl : Int) (forbidden : Int)
  /-- Created at generate.go:129 and generate.go:135. -/
  | randIntExcept (n : Int) (cause : Error)
  /-- Created at generate.go:51. -/
  | nilReader
  /-- Created at generate.go:55. -/
  | invalidPolicy (cause : Error)
  /-- Created at generate.go:60. -/
  | pickLength (cause : Error)
  /-- Created at generate.go:69. -/
  | fill (fullAlphabet : List Char) (i : Int) (cause : Error)
  /-- Created at generate.go:82. -/
  | requiredChar (alphabet : List Char) (cause : Error)
  /-- Created at generate.go:87. -/
  | position (alphabet : List Char) (cause : Error)
  /-- Created at policy.go:63. -/
  | tooShort (minLength : Int) (required : Int)
  /-- Created at policy.go:72. -/
  | passwordLength (n : Int) (minLength : Int) (maxLength : Int)
  /-- Created at policy.go:79. -/
  | missingAlphabet (alphabet : List Char)
deriving DecidableEq, Repr

/-- The struct `Policy`. -/
structure Policy where
  MinLength : Int
  MaxLength : Int
  RequireLowercase : Bool
  RequireUppercase : Bool
  RequireDigit : Bool
  RequireSymbol : Bool
deriving DecidableEq, Repr

/-- The constructor `NewStrongPolicy`. -/
def NewStrongPolicy (minLen maxLen : Int) : Policy :=
  { MinLength := minLen
    MaxLength := maxLen
    RequireLowercase := true
    RequireUppercase := true
    RequireDigit := true
    RequireSymbol := true }

/-- The counter `differentTypesIncluded` at the end of `Validate`. -/
def Policy.differentTypesIncluded (p : Policy) : Int :=
  let n0 : Int := 0
  let n1 := if p.RequireLowercase then n0 + 1 else n0
  let n2 := if p.RequireUppercase then n1 + 1 else n1
  let n3 := if p.RequireDigit then n2 + 1 else n2
  if p.RequireSymbol then n3 + 1 else n3

/-- The method `Policy.Validate`; `none` is the `nil` error. -/
def Policy.Validate (p : Policy) : Option Error :=
  if p.MinLength < p.differentTypesIncluded then
    some (.tooShort p.MinLength p.differentTypesIncluded)
  else
    none

/-- The function `stringToRunesMap`: the set of runes of `s`. -/
def stringToRunesMap (s : List Char) : List Char :=
  s.foldl (fun result b => List.insert b result) []

/-- The loop of `validateOverAlphabet` over the runes of the password. -/
def validateOverAlphabet.loop (runes : List Char) : List Char → Bool
  | [] => false
  | r :: rest => if r ∈ runes then true else validateOverAlphabet.loop runes rest

/-- The function `validateOverAlphabet`. -/
def validateOverAlphabet (password alphabet : List Char) : Bool :=
  validateOverAlphabet.loop (stringToRunesMap alphabet) password

/-- The method `Policy.getRequiredAlphabets`. -/
def Policy.getRequiredAlphabets (p : Policy) : List (List Char) :=
  let r0 : List (List Char) := []
  let r1 := if p.RequireLowercase then r0 ++ [LowercaseLetters] else r0
  let r2 := if p.RequireUppercase then r1 ++ [UppercaseLetters] else r1
  let r3 := if p.RequireDigit then r2 ++ [Digits] else r2
  if p.RequireSymbol then r3 ++ [Symbols] else r3

/-- The method `Policy.getFullAlphabet`. -/
def Policy.getFullAlphabet (_p : Policy) : List Char :=
  LowercaseLetters ++ UppercaseLetters ++ Digits ++ Symbols

/-- The loop of `ValidatePassword` over the required alphabets. -/
def Policy.ValidatePassword.loop (password : List Char) : List (List Char) → Option Error
  | [] => none
  | alphabet :: rest =>
    if !validateOverAlphabet password alphabet then
      some (.missingAlphabet alphabet)
    else
      Policy.ValidatePassword.loop password rest

/-- The method `Policy.ValidatePassword`; `none` is the `nil` error. -/
def Policy.ValidatePassword (p : Policy) (password : List Char) : Option Error :=
  if len password < p.MinLength ∨ len password < p.MaxLength then
    some (.passwordLength (len password) p.MinLength p.MaxLength)
  else
    Policy.ValidatePassword.loop password p.getRequiredAlphabets

/-! ## generate.go -/

/-- One call of `rand.Int`: the bound asked for and the outcome (`none`: the reader failed). -/
structure DrawRecord where
  bound : Int
  result : Option Int
deriving DecidableEq, Repr

/-- The calls of `rand.Int` made so far, most recent first. -/
abbrev Log := List DrawRecord

/-- A randomness source as seen through `rand.Int(reader, max)` for `max > 0`:
`draw k max` is the outcome of call number `k` (counted from 0); `none` is an error. -/
structure Reader where
  draw : Nat → Int → Option Int

/-- The struct `Generator`; `none` is the `nil` reader. -/
structure Generator where
  reader : Option Reader

/-- The ways a run can end: a normal return, a run-time panic, or the retry
loop still running when the iteration budget is used up.  Each carries the log. -/
inductive Run (α : Type) where
  | done (a : α) (log : Log)
  | panic (log : Log)
  | running (log : Log)
deriving DecidableEq, Repr

/-- The log at the end of a run. -/
def Run.log {α : Type} : Run α → Log
  | .done _ l => l
  | .panic l => l
  | .running l => l

/-- The method `Generator.randInt`.  `rand.Int` panics when `max <= 0`, and so
does reading from a nil reader. -/
def Generator.randInt (g : Generator) (maxExcl : Int) (log : Log) : Run (Except Error Int) :=
  if maxExcl ≤ 0 then
    .panic log
  else
    match g.reader with
    | none => .panic log
    | some r =>
      match r.draw log.length maxExcl with
      | none => .done (.error (.randInt .readerFailure)) (⟨maxExcl, none⟩ :: log)
      | some v => .done (.ok v) (⟨maxExcl, some v⟩ :: log)

/-- The function `isIntInSet`. -/
def isIntInSet (i : Int) (set : List Int) : Bool :=
  decide (i ∈ set)

/-- The method `Generator.randomElement`. -/
def Generator.randomElement (g : Generator) (s : List Char) (log : Log) :
    Run (Except Error Char) :=
  match g.randInt (len s) log with
  | .panic l => .panic l
  | .running l => .running l
  | .done (.error err) l => .done (.error (.randomElement (len s) err)) l
  | .done (.ok randIndex) l =>
    match index s randIndex with
    | none => .panic l
    | some c => .done (.ok c) l

/-- The method `Generator.pickLength`. -/
def Generator.pickLength (g : Generator) (policy : Policy) (log : Log) :
    Run (Except Error Int) :=
  if policy.MinLength = policy.MaxLength then
    .done (.ok policy.MinLength) log
  else
    let randNumRange := wrapInt (policy.MaxLength - policy.MinLength + 1)
    match g.randInt randNumRange log with
    | .panic l => .panic l
    | .running l => .running l
    | .done (.error err) l => .done (.error (.pickLengthDraw randNumRange err)) l
    | .done (.ok randNum) l => .done (.ok (wrapInt (policy.MinLength + randNum))) l

/-- The retry loop of `randIntExcept`, entered with the value drawn last;
`fuel` bounds the number of iterations. -/
def Generator.randIntExcept.loop (g : Generator) (maxExcl : Int) (forbiddenNumbers : List Int) :
    Nat → Int → Log → Run (Except Error Int)
  | fuel, value, log =>
    if isIntInSet value forbiddenNumbers then
      match fuel with
      | 0 => .running log
      | fuel + 1 =>
        match g.randInt maxExcl log with
        | .panic l => .panic l
        | .running l => .running l
        | .done (.error err) l => .done (.error (.randIntExcept maxExcl err)) l
        | .done (.ok value) l => Generator.randIntExcept.loop g maxExcl forbiddenNumbers fuel value l
    else
      .done (.ok value) log

/-- The method `Generator.randIntExcept`. -/
def Generator.randIntExcept (fuel : Nat) (g : Generator) (maxExcl : Int)
    (forbiddenNumbers : List Int) (log : Log) : Run (Except Error Int) :=
  if maxExcl ≤ (forbiddenNumbers.length : Int) then
    .done (.error (.noFreeNumber maxExcl forbiddenNumbers.length)) log
  else
    match g.randInt maxExcl log with
    | .panic l => .panic l
    | .running l => .running l
    | .done (.error err) l => .done (.error (.randIntExcept maxExcl err)) l
    | .done (.ok value) l => Generator.randIntExcept.loop g maxExcl forbiddenNumbers fuel value l

/-- The first loop of `Generate`, `for i := 0; i < length; i++`, with `n`
iterations left to run and the loop counter at `i`. -/
def Generator.Generate.fill (g : Generator) (fullAlphabet : List Char) :
    Nat → Int → List Char → Log → Run (Except Error (List Char))
  | 0, _, resultBB, log => .done (.ok resultBB) log
  | n + 1, i, resultBB, log =>
    match g.randomElement fullAlphabet log with
    | .panic l => .panic l
    | .running l => .running l
    | .done (.error err) l => .done (.error (.fill fullAlphabet i err)) l
    | .done (.ok char) l =>
      match store resultBB i char with
      | none => .panic l
      | some resultBB => Generator.Generate.fill g fullAlphabet n (i + 1) resultBB l

/-- The second loop of `Generate`, over the required alphabets that are left. -/
def Generator.Generate.repair (fuel : Nat) (g : Generator) (length : Int) :
    List (List Char) → List Char → List Int → Log → Run (Except Error (List Char))
  | [], resultBB, _, log => .done (.ok resultBB) log
  | alphabet :: rest, resultBB, usedPositions, log =>
    match g.randomElement alphabet log with
    | .panic l => .panic l
    | .running l => .running l
    | .done (.error err) l => .done (.error (.requiredChar alphabet err)) l
    | .done (.ok char) l =>
      match g.randIntExcept fuel length usedPositions l with
      | .panic l => .panic l
      | .running l => .running l
      | .done (.error err) l => .done (.error (.position alphabet err)) l
      | .done (.ok position) l =>
        match store resultBB position char with
        | none => .panic l
        | some resultBB =>
          Generator.Generate.repair fuel g length rest resultBB
            (List.insert position usedPositions) l

/-- The method `Generator.Generate`: the returned pair `(string, error)`.
`maxAlloc` is the allocation limit of `makeBytes`. -/
def Generator.Generate (maxAlloc : Int) (fuel : Nat) (g : Generator) (policy : Policy)
    (log : Log) :
    Run (List Char × Option Error) :=
  match g.reader with
  | none => .done ([], some .nilReader) log
  | some _ =>
    match policy.Validate with
    | some err => .done ([], some (.invalidPolicy err)) log
    | none =>
      match g.pickLength policy log with
      | .panic l => .panic l
      | .running l => .running l
      | .done (.error err) l => .done ([], some (.pickLength err)) l
      | .done (.ok length) l =>
        match makeBytes maxAlloc length with
        | none => .panic l
        | some resultBB =>
          match Generator.Generate.fill g policy.getFullAlphabet length.toNat 0 resultBB l with
          | .panic l => .panic l
          | .running l => .running l
          | .done (.error err) l => .done ([], some err) l
          | .done (.ok resultBB) l =>
            match Generator.Generate.repair fuel g length policy.getRequiredAlphabets
                resultBB [] l with
            | .panic l => .panic l
            | .running l => .running l
            | .done (.error err) l => .done ([], some err) l
            | .done (.ok resultBB) l => .done (resultBB, none) l

/-- The constructor `NewGenerator`; `randReader` stands for the package variable
`rand.Reader` of `crypto/rand`. -/
def NewGenerator (randReader : Reader) : Generator :=
  { reader := some randReader }

/-- The function `GenerateStrong`. -/
def GenerateStrong (maxAlloc : Int) (fuel : Nat) (randReader : Reader) (minLen maxLen : Int)
    (log : Log) : Run (List Char × Option Error) :=
  let generator := NewGenerator randReader
  let policy := NewStrongPolicy minLen maxLen
  generator.Generate maxAlloc fuel policy log

/-! ## Randomness sources -/

/-- Every draw succeeds with a value in `[0, n)`, as `rand.Int` guarantees when
the reader does not fail. -/
def Reader.InRange (r : Reader) : Prop :=
  ∀ (k : Nat) (n : Int), 0 < n → ∃ v, r.draw k n = some v ∧ 0 ≤ v ∧ v < n

/-- Repeated draws below `n` sooner or later leave any set of fewer than `n` values. -/
def Reader.Fair (r : Reader) : Prop :=
  ∀ (k : Nat) (n : Int) (forbidden : List Int), (forbidden.length : Int) < n →
    ∃ j v, r.draw (k + j) n = some v ∧ v ∉ forbidden

/-- Every draw that succeeds has a value in `[0, n)`: the contract of `rand.Int`.
Draws may fail. -/
def Reader.Bounded (r : Reader) : Prop :=
  ∀ (k : Nat) (n : Int) (v : Int), 0 < n → r.draw k n = some v → 0 ≤ v ∧ v < n

/-- Two sources give the same draws from call number `k0` on. -/
def Reader.AgreeFrom (r1 r2 : Reader) (k0 : Nat) : Prop :=
  ∀ (k : Nat) (n : Int), k0 ≤ k → r1.draw k n = r2.draw k n

/-- A source whose every draw is `0`. -/
def zeroReader : Reader := ⟨fun _ _ => some 0⟩

/-- A source whose `k`-th draw below `n` is `k mod n`. -/
def counterReader : Reader := ⟨fun k n => some ((k : Int) % n)⟩

/-- A source that fails at every draw. -/
def brokenReader : Reader := ⟨fun _ _ => none⟩

/-- A source whose first draw fails and whose `k`-th draw below `n`, for `k > 0`,
is `k mod n`. -/
def skipReader : Reader := ⟨fun k n => if k = 0 then none else some ((k : Int) % n)⟩

/-! ## Auxiliary notions used in the statements -/

/-- A returned `(value, error)` result that carries an error. -/
def isError {α : Type} (x : Except Error α) : Prop :=
  ∃ e, x = .error e

/-- A returned pair `(string, error)` of `Generate` with a non-nil error and the empty string. -/
def isFailure (x : List Char × Option Error) : Prop :=
  x.1 = [] ∧ x.2 ≠ none

/-- The run `o`, started with the log `log`, only added records to the log, and
if one of the added draws failed then `o` is a return that satisfies `failed`. -/
def Run.Tracked {α : Type} (failed : α → Prop) (log : Log) (o : Run α) : Prop :=
  ∃ new : Log, o.log = new ++ log ∧
    ((∃ d ∈ new, d.result = none) → ∃ a, failed a ∧ o = .done a o.log)

/-- The buffer after the assignments `writes` (position and byte, in order). -/
def applyWrites (b : List Char) (writes : List (Nat × Char)) : List Char :=
  writes.foldl (fun acc w => acc.set w.1 w.2) b

/-- The required alphabets as the specification words them: the class strings of
the flags that are set, in the fixed order lowercase, uppercase, digit, symbol. -/
def Policy.requiredAlphabetsSpec (p : Policy) : List (List Char) :=
  ([(p.RequireLowercase, LowercaseLetters), (p.RequireUppercase, UppercaseLetters),
    (p.RequireDigit, Digits), (p.RequireSymbol, Symbols)].filter (fun x => x.1)).map
      (fun x => x.2)

/-- Two runs, started with the logs `log1` and `log2`, ended the same way, with
the same value, after adding the same records to their logs. -/
def Run.Similar {α : Type} (log1 log2 : Log) (o1 o2 : Run α) : Prop :=
  ∃ new : Log,
    (∃ a, o1 = .done a (new ++ log1) ∧ o2 = .done a (new ++ log2)) ∨
    (o1 = .panic (new ++ log1) ∧ o2 = .panic (new ++ log2)) ∨
    (o1 = .running (new ++ log1) ∧ o2 = .running (new ++ log2))

/-! ## Facts about the policy -/

theorem mem_stringToRunesMap (s : List Char) (c : Char) :
    c ∈ stringToRunesMap s ↔ c ∈ s := by
  have key : ∀ (s acc : List Char),
      c ∈ s.foldl (fun result b => List.insert b result) acc ↔ c ∈ acc ∨ c ∈ s := by
    intro s
    induction s with
    | nil => intro acc; simp
    | cons b rest ih =>
      intro acc
      simp only [List.foldl_cons, ih, List.mem_insert_iff, List.mem_cons]
      tauto
  simpa [stringToRunesMap] using key s []

theorem validateOverAlphabet_loop_iff (runes password : List Char) :
    validateOverAlphabet.loop runes password = true ↔ ∃ c ∈ password, c ∈ runes := by
  induction password with
  | nil => simp [validateOverAlphabet.loop]
  | cons r rest ih =>
    by_cases h : r ∈ runes
    · simp [validateOverAlphabet.loop, h]
    · simp [validateOverAlphabet.loop, h, ih]

theorem validateOverAlphabet_iff (password alphabet : List Char) :
    validateOverAlphabet password alphabet = true ↔ ∃ c ∈ password, c ∈ alphabet := by
  simp [validateOverAlphabet, validateOverAlphabet_loop_iff, mem_stringToRunesMap]

theorem ValidatePassword_loop_iff (password : List Char) (alphabets : List (List Char)) :
    Policy.ValidatePassword.loop password alphabets ≠ none ↔
      ∃ a ∈ alphabets, ∀ c ∈ password, c ∉ a := by
  induction alphabets with
  | nil => simp [Policy.ValidatePassword.loop]
  | cons a rest ih =>
    by_cases h : validateOverAlphabet password a = true
    · have h' := (validateOverAlphabet_iff password a).1 h
      simp only [Policy.ValidatePassword.loop, h, Bool.not_true, Bool.false_eq_true, if_false, ih,
        List.mem_cons, exists_eq_or_imp]
      constructor
      · intro hx; exact Or.inr hx
      · rintro (hx | hx)
        · obtain ⟨c, hc, hca⟩ := h'
          exact absurd hca (hx c hc)
        · exact hx
    · have h' : ∀ c ∈ password, c ∉ a := by
        intro c hc hca
        exact h ((validateOverAlphabet_iff password a).2 ⟨c, hc, hca⟩)
      simp only [Bool.not_eq_true] at h
      simp only [Policy.ValidatePassword.loop, h, Bool.not_false, if_true, List.mem_cons,
        exists_eq_or_imp]
      constructor
      · intro _; exact Or.inl h'
      · intro _; simp

theorem differentTypesIncluded_eq (p : Policy) :
    p.differentTypesIncluded =
      (([p.RequireLowercase, p.RequireUppercase, p.RequireDigit, p.RequireSymbol].count true :
        Nat) : Int) := by
  rcases p with ⟨mn, mx, a, b, c, d⟩
  cases a <;> cases b <;> cases c <;> cases d <;> rfl

/-- C2: `Validate` returns an error exactly when `MinLength` is below the number
of `Require*` flags that are set; the outcome is the same whatever `MaxLength`
is; with all four flags `MinLength = 2` fails and `MinLength = 4` succeeds. -/
theorem Validate_error_iff :
    (∀ p : Policy, p.Validate ≠ none ↔
      p.MinLength <
        (([p.RequireLowercase, p.RequireUppercase, p.RequireDigit, p.RequireSymbol].count true :
          Nat) : Int)) ∧
    (∀ (p : Policy) (m : Int), Policy.Validate { p with MaxLength := m } = p.Validate) ∧
    (∀ m : Int, (NewStrongPolicy 2 m).Validate ≠ none) ∧
    (∀ m : Int, (NewStrongPolicy 4 m).Validate = none) := by
  refine ⟨?_, ?_, ?_, ?_⟩
  · intro p
    rw [← differentTypesIncluded_eq]
    unfold Policy.Validate
    split <;> simp [*]
  · intro p m
    rfl
  · intro m
    simp [Policy.Validate, NewStrongPolicy, Policy.differentTypesIncluded]
  · intro m
    simp [Policy.Validate, NewStrongPolicy, Policy.differentTypesIncluded]

/-- C4: `ValidatePassword` returns an error exactly when the candidate's length
(Go's `len`) is below `MinLength`, or below `MaxLength`, or some required
alphabet has no character occurring in the candidate; otherwise it returns nil. -/
theorem ValidatePassword_error_iff (p : Policy) (password : List Char) :
    (p.ValidatePassword password ≠ none ↔
      (len password < p.MinLength ∨ len password < p.MaxLength ∨
        ∃ a ∈ p.getRequiredAlphabets, ∀ c ∈ password, c ∉ a)) ∧
    (p.ValidatePassword password = none ↔
      ¬ (len password < p.MinLength ∨ len password < p.MaxLength ∨
        ∃ a ∈ p.getRequiredAlphabets, ∀ c ∈ password, c ∉ a)) := by
  have main : p.ValidatePassword password ≠ none ↔
      (len password < p.MinLength ∨ len password < p.MaxLength ∨
        ∃ a ∈ p.getRequiredAlphabets, ∀ c ∈ password, c ∉ a) := by
    unfold Policy.ValidatePassword
    by_cases h : len password < p.MinLength ∨ len password < p.MaxLength
    · rw [if_pos h]
      constructor
      · intro _
        rcases h with h | h
        · exact Or.inl h
        · exact Or.inr (Or.inl h)
      · intro _; simp
    · rw [if_neg h, ValidatePassword_loop_iff]
      constructor
      · intro hx; exact Or.inr (Or.inr hx)
      · rintro (hx | hx | hx)
        · exact absurd (Or.inl hx) h
        · exact absurd (Or.inr hx) h
        · exact hx
  refine ⟨main, ?_⟩
  rw [← main]
  simp

/-- C8: with a nil reader `Generate` returns the empty string and the nil-reader
error for every policy, valid or not, and makes no draw. -/
theorem Generate_nil_reader (maxAlloc : Int) (fuel : Nat) (policy : Policy) (log : Log) :
    Generator.Generate maxAlloc fuel ⟨none⟩ policy log = .done ([], some .nilReader) log := by
  rfl

/-- C9: when `Validate` fails, `Generate` on a generator with a reader returns the
empty string and an error wrapping the `Validate` error, and makes no draw. -/
theorem Generate_invalid_policy (maxAlloc : Int) (fuel : Nat) (r : Reader) (policy : Policy) (log : Log)
    (err : Error) (h : policy.Validate = some err) :
    Generator.Generate maxAlloc fuel ⟨some r⟩ policy log = .done ([], some (.invalidPolicy err)) log := by
  simp [Generator.Generate, h]

theorem Generate_invalid_policy_witness :
    (NewStrongPolicy 3 3).Validate = some (.tooShort 3 4) ∧
    Generator.Generate (2 ^ 48) 0 ⟨some brokenReader⟩ (NewStrongPolicy 3 3) [] =
      .done ([], some (.invalidPolicy (.tooShort 3 4))) [] :=
  ⟨by decide, Generate_invalid_policy (2 ^ 48) 0 brokenReader (NewStrongPolicy 3 3) [] _ (by decide)⟩


/-! ## Draws recorded in the log -/

theorem Run.Tracked.done_same {α : Type} (failed : α → Prop) (log : Log) (a : α) :
    Run.Tracked failed log (.done a log) :=
  ⟨[], rfl, by simp⟩

theorem Run.Tracked.panic_same {α : Type} (failed : α → Prop) (log : Log) :
    Run.Tracked failed log (.panic log : Run α) :=
  ⟨[], rfl, by simp⟩

theorem Run.Tracked.running_same {α : Type} (failed : α → Prop) (log : Log) :
    Run.Tracked failed log (.running log : Run α) :=
  ⟨[], rfl, by simp⟩

theorem Run.Tracked.panic_of {α β : Type} {fa : α → Prop} (fb : β → Prop) {log l : Log}
    (h : Run.Tracked fa log (.panic l : Run α)) : Run.Tracked fb log (.panic l : Run β) := by
  obtain ⟨new, hlog, himp⟩ := h
  refine ⟨new, hlog, fun hf => ?_⟩
  obtain ⟨a, _, ha⟩ := himp hf
  cases ha

theorem Run.Tracked.running_of {α β : Type} {fa : α → Prop} (fb : β → Prop) {log l : Log}
    (h : Run.Tracked fa log (.running l : Run α)) : Run.Tracked fb log (.running l : Run β) := by
  obtain ⟨new, hlog, himp⟩ := h
  refine ⟨new, hlog, fun hf => ?_⟩
  obtain ⟨a, _, ha⟩ := himp hf
  cases ha

theorem Run.Tracked.panic_of_done {α β : Type} {fa : α → Prop} (fb : β → Prop) {log l : Log}
    {a : α} (h : Run.Tracked fa log (.done a l)) (hna : ¬ fa a) :
    Run.Tracked fb log (.panic l : Run β) := by
  obtain ⟨new, hlog, himp⟩ := h
  refine ⟨new, hlog, fun hf => ?_⟩
  obtain ⟨a', ha', heq⟩ := himp hf
  cases heq
  exact absurd ha' hna

theorem Run.Tracked.error_of {α β : Type} {fa : α → Prop} {fb : β → Prop} {log l : Log}
    {a : α} (h : Run.Tracked fa log (.done a l)) (b : β) (hb : fb b) :
    Run.Tracked fb log (.done b l) := by
  obtain ⟨new, hlog, _⟩ := h
  exact ⟨new, hlog, fun _ => ⟨b, hb, rfl⟩⟩

theorem Run.Tracked.trans {α β : Type} {fa : α → Prop} {fb : β → Prop} {log l : Log}
    {a : α} {o : Run β} (h : Run.Tracked fa log (.done a l)) (hna : ¬ fa a)
    (h2 : Run.Tracked fb l o) : Run.Tracked fb log o := by
  obtain ⟨new1, hlog1, himp1⟩ := h
  obtain ⟨new2, hlog2, himp2⟩ := h2
  have hl : l = new1 ++ log := hlog1
  have hclean : ¬ ∃ d ∈ new1, d.result = none := by
    intro hf
    obtain ⟨a', ha', heq⟩ := himp1 hf
    cases heq
    exact hna ha'
  refine ⟨new2 ++ new1, by rw [hlog2, hl, List.append_assoc], ?_⟩
  rintro ⟨d, hd, hres⟩
  rcases List.mem_append.1 hd with hd | hd
  · exact himp2 ⟨d, hd, hres⟩
  · exact absurd ⟨d, hd, hres⟩ hclean

theorem not_isError_ok {α : Type} (a : α) : ¬ isError (Except.ok a : Except Error α) := by
  rintro ⟨e, he⟩
  cases he

theorem isError_error {α : Type} (e : Error) : isError (Except.error e : Except Error α) :=
  ⟨e, rfl⟩

theorem randInt_tracked (g : Generator) (maxExcl : Int) (log : Log) :
    Run.Tracked isError log (g.randInt maxExcl log) := by
  unfold Generator.randInt
  split
  · exact Run.Tracked.panic_same _ _
  · split
    · exact Run.Tracked.panic_same _ _
    · split
      · exact ⟨[⟨maxExcl, none⟩], rfl, fun _ => ⟨_, isError_error _, rfl⟩⟩
      · exact ⟨[⟨maxExcl, some _⟩], rfl, by simp⟩

theorem randomElement_tracked (g : Generator) (s : List Char) (log : Log) :
    Run.Tracked isError log (g.randomElement s log) := by
  have h := randInt_tracked g (len s) log
  unfold Generator.randomElement
  split
  · next heq => rw [heq] at h; exact h.panic_of _
  · next heq => rw [heq] at h; exact h.running_of _
  · next heq => rw [heq] at h; exact h.error_of _ (isError_error _)
  · next heq =>
    rw [heq] at h
    split
    · exact h.panic_of_done _ (not_isError_ok _)
    · exact h.trans (not_isError_ok _) (Run.Tracked.done_same _ _ _)

theorem pickLength_tracked (g : Generator) (policy : Policy) (log : Log) :
    Run.Tracked isError log (g.pickLength policy log) := by
  unfold Generator.pickLength
  split
  · exact Run.Tracked.done_same _ _ _
  · have h := randInt_tracked g (wrapInt (policy.MaxLength - policy.MinLength + 1)) log
    simp only
    split
    · next heq => rw [heq] at h; exact h.panic_of _
    · next heq => rw [heq] at h; exact h.running_of _
    · next heq => rw [heq] at h; exact h.error_of _ (isError_error _)
    · next heq =>
      rw [heq] at h
      exact h.trans (not_isError_ok _) (Run.Tracked.done_same _ _ _)

theorem randIntExcept_loop_tracked (g : Generator) (maxExcl : Int) (forbidden : List Int)
    (fuel : Nat) : ∀ (value : Int) (log : Log),
      Run.Tracked isError log (Generator.randIntExcept.loop g maxExcl forbidden fuel value log) := by
  induction fuel with
  | zero =>
    intro value log
    unfold Generator.randIntExcept.loop
    split
    · exact Run.Tracked.running_same _ _
    · exact Run.Tracked.done_same _ _ _
  | succ fuel ih =>
    intro value log
    unfold Generator.randIntExcept.loop
    split
    · have h := randInt_tracked g maxExcl log
      simp only
      split
      · next heq => rw [heq] at h; exact h.panic_of _
      · next heq => rw [heq] at h; exact h.running_of _
      · next heq => rw [heq] at h; exact h.error_of _ (isError_error _)
      · next heq =>
        rw [heq] at h
        exact h.trans (not_isError_ok _) (ih _ _)
    · exact Run.Tracked.done_same _ _ _

theorem randIntExcept_tracked (fuel : Nat) (g : Generator) (maxExcl : Int)
    (forbidden : List Int) (log : Log) :
    Run.Tracked isError log (g.randIntExcept fuel maxExcl forbidden log) := by
  unfold Generator.randIntExcept
  split
  · exact Run.Tracked.done_same _ _ _
  · have h := randInt_tracked g maxExcl log
    split
    · next heq => rw [heq] at h; exact h.panic_of _
    · next heq => rw [heq] at h; exact h.running_of _
    · next heq => rw [heq] at h; exact h.error_of _ (isError_error _)
    · next heq =>
      rw [heq] at h
      exact h.trans (not_isError_ok _) (randIntExcept_loop_tracked _ _ _ _ _ _)

theorem fill_tracked (g : Generator) (fullAlphabet : List Char) (n : Nat) :
    ∀ (i : Int) (resultBB : List Char) (log : Log),
      Run.Tracked isError log (Generator.Generate.fill g fullAlphabet n i resultBB log) := by
  induction n with
  | zero =>
    intro i resultBB log
    exact Run.Tracked.done_same _ _ _
  | succ n ih =>
    intro i resultBB log
    have h := randomElement_tracked g fullAlphabet log
    unfold Generator.Generate.fill
    split
    · next heq => rw [heq] at h; exact h.panic_of _
    · next heq => rw [heq] at h; exact h.running_of _
    · next heq => rw [heq] at h; exact h.error_of _ (isError_error _)
    · next heq =>
      rw [heq] at h
      split
      · exact h.panic_of_done _ (not_isError_ok _)
      · exact h.trans (not_isError_ok _) (ih _ _ _)

theorem repair_tracked (fuel : Nat) (g : Generator) (length : Int)
    (alphabets : List (List Char)) :
    ∀ (resultBB : List Char) (used : List Int) (log : Log),
      Run.Tracked isError log
        (Generator.Generate.repair fuel g length alphabets resultBB used log) := by
  induction alphabets with
  | nil =>
    intro resultBB used log
    exact Run.Tracked.done_same _ _ _
  | cons alphabet rest ih =>
    intro resultBB used log
    have h := randomElement_tracked g alphabet log
    unfold Generator.Generate.repair
    split
    · next heq => rw [heq] at h; exact h.panic_of _
    · next heq => rw [heq] at h; exact h.running_of _
    · next heq => rw [heq] at h; exact h.error_of _ (isError_error _)
    · next c l heq =>
      rw [heq] at h
      have h2 := randIntExcept_tracked fuel g length used l
      split
      · next heq2 => rw [heq2] at h2; exact h.trans (not_isError_ok _) (h2.panic_of _)
      · next heq2 => rw [heq2] at h2; exact h.trans (not_isError_ok _) (h2.running_of _)
      · next heq2 =>
        rw [heq2] at h2
        exact h.trans (not_isError_ok _) (h2.error_of _ (isError_error _))
      · next heq2 =>
        rw [heq2] at h2
        split
        · exact h.trans (not_isError_ok _) (h2.panic_of_done _ (not_isError_ok _))
        · exact h.trans (not_isError_ok _) (h2.trans (not_isError_ok _) (ih _ _ _))

theorem Generate_tracked {maxAlloc : Int} (fuel : Nat) (g : Generator) (policy : Policy) (log : Log) :
    Run.Tracked isFailure log (g.Generate maxAlloc fuel policy log) := by
  unfold Generator.Generate
  split
  · exact Run.Tracked.done_same _ _ _
  · split
    · exact Run.Tracked.done_same _ _ _
    · have h := pickLength_tracked g policy log
      split
      · next heq => rw [heq] at h; exact h.panic_of _
      · next heq => rw [heq] at h; exact h.running_of _
      · next heq => rw [heq] at h; exact h.error_of _ ⟨rfl, by simp⟩
      · next length l heq =>
        rw [heq] at h
        split
        · exact h.panic_of_done _ (not_isError_ok _)
        · next bb0 _ =>
          have h2 := fill_tracked g policy.getFullAlphabet length.toNat 0 bb0 l
          split
          · next heq2 => rw [heq2] at h2; exact h.trans (not_isError_ok _) (h2.panic_of _)
          · next heq2 => rw [heq2] at h2; exact h.trans (not_isError_ok _) (h2.running_of _)
          · next heq2 =>
            rw [heq2] at h2
            exact h.trans (not_isError_ok _) (h2.error_of _ ⟨rfl, by simp⟩)
          · next bb1 l2 heq2 =>
            rw [heq2] at h2
            have h3 := repair_tracked fuel g length policy.getRequiredAlphabets bb1 [] l2
            have h12 := h.trans (not_isError_ok _) h2
            split
            · next heq3 => rw [heq3] at h3; exact h12.trans (not_isError_ok _) (h3.panic_of _)
            · next heq3 => rw [heq3] at h3; exact h12.trans (not_isError_ok _) (h3.running_of _)
            · next heq3 =>
              rw [heq3] at h3
              exact h12.trans (not_isError_ok _) (h3.error_of _ ⟨rfl, by simp⟩)
            · next heq3 =>
              rw [heq3] at h3
              refine h12.trans (not_isError_ok _) ?_
              obtain ⟨new, hlog, himp⟩ := h3
              refine ⟨new, hlog, fun hf => ?_⟩
              obtain ⟨a, ha, heq⟩ := himp hf
              cases heq
              exact absurd ha (not_isError_ok _)


/-! ## What a successful call returns -/

theorem index_some {s : List Char} {i : Int} {c : Char} (h : index s i = some c) :
    0 ≤ i ∧ i.toNat < s.length ∧ s[i.toNat]? = some c := by
  unfold index at h
  split at h
  · cases h
  · next hi =>
    rw [List.get?_eq_getElem?] at h
    refine ⟨by omega, ?_, h⟩
    by_contra hlt
    rw [List.getElem?_eq_none (by omega)] at h
    cases h

theorem index_mem {s : List Char} {i : Int} {c : Char} (h : index s i = some c) : c ∈ s :=
  List.getElem?_mem (index_some h).2.2

theorem store_some {b : List Char} {i : Int} {c : Char} {b' : List Char}
    (h : store b i c = some b') :
    0 ≤ i ∧ i.toNat < b.length ∧ b' = b.set i.toNat c := by
  unfold store at h
  split at h
  · next hi =>
    cases h
    exact ⟨hi.1, by omega, rfl⟩
  · cases h

theorem makeBytes_some {maxAlloc : Int} {length : Int} {b : List Char}
    (h : makeBytes maxAlloc length = some b) :
    0 ≤ length ∧ b.length = length.toNat := by
  unfold makeBytes at h
  split at h
  · cases h
  · cases h
    exact ⟨by omega, by simp⟩

theorem randInt_ok {g : Generator} {maxExcl : Int} {log l : Log} {v : Int}
    (h : g.randInt maxExcl log = .done (.ok v) l) :
    0 < maxExcl ∧ ∃ r, g.reader = some r ∧ r.draw log.length maxExcl = some v ∧
      l = ⟨maxExcl, some v⟩ :: log := by
  unfold Generator.randInt at h
  split at h
  · cases h
  · next hpos =>
    split at h
    · cases h
    · next r hr =>
      split at h
      · cases h
      · next v' hv =>
        cases h
        exact ⟨by omega, r, hr, hv, rfl⟩

theorem randomElement_ok {g : Generator} {s : List Char} {log l : Log} {c : Char}
    (h : g.randomElement s log = .done (.ok c) l) :
    ∃ v, g.randInt (len s) log = .done (.ok v) l ∧ index s v = some c := by
  unfold Generator.randomElement at h
  split at h
  · cases h
  · cases h
  · cases h
  · next v l' heq =>
    split at h
    · cases h
    · next c' hc =>
      cases h
      exact ⟨v, heq, hc⟩

theorem randIntExcept_loop_ok (g : Generator) (maxExcl : Int) (forbidden : List Int)
    (fuel : Nat) : ∀ (value : Int) (log l : Log) (p : Int),
      Generator.randIntExcept.loop g maxExcl forbidden fuel value log = .done (.ok p) l →
      p ∉ forbidden := by
  induction fuel with
  | zero =>
    intro value log l p h
    unfold Generator.randIntExcept.loop at h
    split at h
    · cases h
    · next hv =>
      cases h
      simpa [isIntInSet] using hv
  | succ fuel ih =>
    intro value log l p h
    unfold Generator.randIntExcept.loop at h
    split at h
    · simp only at h
      split at h
      · cases h
      · cases h
      · cases h
      · exact ih _ _ _ _ h
    · next hv =>
      cases h
      simpa [isIntInSet] using hv

theorem randIntExcept_ok {fuel : Nat} {g : Generator} {maxExcl : Int} {forbidden : List Int}
    {log l : Log} {p : Int}
    (h : g.randIntExcept fuel maxExcl forbidden log = .done (.ok p) l) :
    p ∉ forbidden ∧ (forbidden.length : Int) < maxExcl := by
  unfold Generator.randIntExcept at h
  split at h
  · cases h
  · next hlen =>
    split at h
    · cases h
    · cases h
    · cases h
    · exact ⟨randIntExcept_loop_ok _ _ _ _ _ _ _ _ h, by omega⟩

theorem fill_ok (g : Generator) (fullAlphabet : List Char) (n : Nat) :
    ∀ (i : Int) (resultBB : List Char) (log l : Log) (out : List Char), 0 ≤ i →
      Generator.Generate.fill g fullAlphabet n i resultBB log = .done (.ok out) l →
      out.length = resultBB.length ∧
      ∀ j : Nat,
        (i.toNat ≤ j ∧ j < i.toNat + n → ∃ c ∈ fullAlphabet, out[j]? = some c) ∧
        (¬ (i.toNat ≤ j ∧ j < i.toNat + n) → out[j]? = resultBB[j]?) := by
  induction n with
  | zero =>
    intro i resultBB log l out _ h
    unfold Generator.Generate.fill at h
    cases h
    refine ⟨rfl, fun j => ⟨fun hj => ?_, fun _ => rfl⟩⟩
    omega
  | succ n ih =>
    intro i resultBB log l out hi h
    unfold Generator.Generate.fill at h
    split at h
    · cases h
    · cases h
    · cases h
    · next c l1 hc =>
      split at h
      · cases h
      · next bb1 hst =>
        obtain ⟨v, _, hidx⟩ := randomElement_ok hc
        have hmem : c ∈ fullAlphabet := index_mem hidx
        obtain ⟨_, hlt, hbb1⟩ := store_some hst
        obtain ⟨hlen, hpos⟩ := ih (i + 1) bb1 l1 l out (by omega) h
        have htn : (i + 1).toNat = i.toNat + 1 := by omega
        subst hbb1
        refine ⟨by simpa using hlen, fun j => ⟨fun hj => ?_, fun hj => ?_⟩⟩
        · by_cases hji : j = i.toNat
          · refine ⟨c, hmem, ?_⟩
            rw [(hpos j).2 (by omega), hji]
            simp [hlt]
          · exact (hpos j).1 (by omega)
        · rw [(hpos j).2 (by omega)]
          rw [List.getElem?_set_ne (by omega)]

theorem repair_ok (fuel : Nat) (g : Generator) (length : Int) (alphabets : List (List Char)) :
    ∀ (resultBB : List Char) (used : List Int) (log l : Log) (out : List Char),
      Generator.Generate.repair fuel g length alphabets resultBB used log = .done (.ok out) l →
      ∃ writes : List (Nat × Char),
        out = applyWrites resultBB writes ∧
        List.Forall₂ (fun w a => w.2 ∈ a) writes alphabets ∧
        (writes.map Prod.fst).Nodup ∧
        (∀ w ∈ writes, w.1 < resultBB.length ∧ ((w.1 : Nat) : Int) ∉ used) ∧
        ((used.length : Int) + alphabets.length ≤ length ∨ alphabets = []) := by
  induction alphabets with
  | nil =>
    intro resultBB used log l out h
    unfold Generator.Generate.repair at h
    cases h
    exact ⟨[], rfl, List.Forall₂.nil, by simp, by simp, Or.inr rfl⟩
  | cons alphabet rest ih =>
    intro resultBB used log l out h
    unfold Generator.Generate.repair at h
    split at h
    · cases h
    · cases h
    · cases h
    · next c l1 hc =>
      split at h
      · cases h
      · cases h
      · cases h
      · next p l2 hp =>
        split at h
        · cases h
        · next bb1 hst =>
          obtain ⟨v, _, hidx⟩ := randomElement_ok hc
          have hmem : c ∈ alphabet := index_mem hidx
          obtain ⟨hp0, hlt, hbb1⟩ := store_some hst
          obtain ⟨hpu, hfree⟩ := randIntExcept_ok hp
          obtain ⟨writes, hout, hall, hnd, hw, hcount⟩ := ih bb1 _ l2 l out h
          have hins : (List.insert p used).length = used.length + 1 :=
            List.length_insert_of_not_mem hpu
          subst hbb1
          refine ⟨(p.toNat, c) :: writes, ?_, List.Forall₂.cons hmem hall, ?_, ?_, ?_⟩
          · simpa [applyWrites] using hout
          · rw [List.map_cons, List.nodup_cons]
            refine ⟨?_, hnd⟩
            intro hin
            obtain ⟨w, hwm, hwp⟩ := List.mem_map.1 hin
            have := (hw w hwm).2
            apply this
            rw [List.mem_insert_iff]
            left
            rw [hwp]
            omega
          · intro w hwm
            rcases List.mem_cons.1 hwm with rfl | hwm
            · refine ⟨hlt, ?_⟩
              have : ((p.toNat : Nat) : Int) = p := by omega
              simpa [this] using hpu
            · have := hw w hwm
              refine ⟨by simpa using this.1, fun hmemu => this.2 ?_⟩
              rw [List.mem_insert_iff]
              exact Or.inr hmemu
          · left
            rcases hcount with hcount | hcount
            · rw [hins] at hcount
              simp only [List.length_cons]
              push_cast at hcount ⊢
              omega
            · subst hcount
              simp only [List.length_cons, List.length_nil]
              push_cast
              omega

theorem Generate_ok {maxAlloc : Int} {fuel : Nat} {g : Generator} {policy : Policy} {log l : Log}
    {password : List Char}
    (h : g.Generate maxAlloc fuel policy log = .done (password, none) l) :
    policy.Validate = none ∧
    ∃ (length : Int) (l1 l2 : Log) (bb0 bb1 : List Char),
      g.pickLength policy log = .done (.ok length) l1 ∧
      makeBytes maxAlloc length = some bb0 ∧
      Generator.Generate.fill g policy.getFullAlphabet length.toNat 0 bb0 l1 =
        .done (.ok bb1) l2 ∧
      Generator.Generate.repair fuel g length policy.getRequiredAlphabets bb1 [] l2 =
        .done (.ok password) l := by
  unfold Generator.Generate at h
  split at h
  · cases h
  · split at h
    · cases h
    · next hval =>
      refine ⟨hval, ?_⟩
      split at h
      · cases h
      · cases h
      · cases h
      · next length l1 hpl =>
        split at h
        · cases h
        · next bb0 hmk =>
          split at h
          · cases h
          · cases h
          · cases h
          · next bb1 l2 hfill =>
            split at h
            · cases h
            · cases h
            · cases h
            · next out l3 hrep =>
              cases h
              exact ⟨length, l1, l2, bb0, bb1, hpl, hmk, hfill, hrep⟩

/-! ## The alphabets -/

theorem len_eq_length_of_ascii (s : List Char) (h : ∀ c ∈ s, c.utf8Size = 1) :
    len s = (s.length : Int) := by
  unfold len
  congr 1
  induction s with
  | nil => rfl
  | cons c rest ih =>
    have hc : c.utf8Size = 1 := h c (List.mem_cons_self _ _)
    have hrest := ih (fun d hd => h d (List.mem_cons_of_mem _ hd))
    simp [hc, hrest, Nat.add_comm]

theorem utf8Size_of_mem_fullAlphabet (p : Policy) :
    ∀ c ∈ p.getFullAlphabet, c.utf8Size = 1 := by
  unfold Policy.getFullAlphabet
  decide

theorem mem_getRequiredAlphabets (p : Policy) (a : List Char)
    (h : a ∈ p.getRequiredAlphabets) :
    a = LowercaseLetters ∨ a = UppercaseLetters ∨ a = Digits ∨ a = Symbols := by
  rcases p with ⟨mn, mx, f1, f2, f3, f4⟩
  cases f1 <;> cases f2 <;> cases f3 <;> cases f4 <;>
    simp [Policy.getRequiredAlphabets] at h <;> tauto

theorem required_subset_fullAlphabet (p : Policy) (a : List Char)
    (h : a ∈ p.getRequiredAlphabets) : ∀ c ∈ a, c ∈ p.getFullAlphabet := by
  intro c hc
  unfold Policy.getFullAlphabet
  rcases mem_getRequiredAlphabets p a h with rfl | rfl | rfl | rfl <;> simp [hc]

theorem length_getRequiredAlphabets (p : Policy) :
    (p.getRequiredAlphabets.length : Int) = p.differentTypesIncluded := by
  rcases p with ⟨mn, mx, f1, f2, f3, f4⟩
  cases f1 <;> cases f2 <;> cases f3 <;> cases f4 <;> rfl

/-! ## The buffer after the repair step -/

theorem applyWrites_length (ws : List (Nat × Char)) :
    ∀ b : List Char, (applyWrites b ws).length = b.length := by
  induction ws with
  | nil => intro b; rfl
  | cons w rest ih =>
    intro b
    simp only [applyWrites, List.foldl_cons] at ih ⊢
    rw [ih, List.length_set]

theorem mem_applyWrites (ws : List (Nat × Char)) :
    ∀ (b : List Char) (c : Char), c ∈ applyWrites b ws → c ∈ b ∨ ∃ w ∈ ws, c = w.2 := by
  induction ws with
  | nil => intro b c h; exact Or.inl h
  | cons w rest ih =>
    intro b c h
    simp only [applyWrites, List.foldl_cons] at ih h
    rcases ih _ c h with h1 | ⟨w', hw', hc⟩
    · rcases List.mem_or_eq_of_mem_set h1 with h2 | h2
      · exact Or.inl h2
      · exact Or.inr ⟨w, List.mem_cons_self _ _, h2⟩
    · exact Or.inr ⟨w', List.mem_cons_of_mem _ hw', hc⟩

theorem applyWrites_get_of_not_mem (ws : List (Nat × Char)) :
    ∀ (b : List Char) (p : Nat), p ∉ ws.map Prod.fst → (applyWrites b ws)[p]? = b[p]? := by
  induction ws with
  | nil => intro b p _; rfl
  | cons w rest ih =>
    intro b p hp
    simp only [List.map_cons, List.mem_cons, not_or] at hp
    simp only [applyWrites, List.foldl_cons] at ih ⊢
    rw [ih _ p hp.2, List.getElem?_set_ne (fun h => hp.1 h.symm)]

theorem applyWrites_get (ws : List (Nat × Char)) :
    ∀ b : List Char, (ws.map Prod.fst).Nodup → (∀ w ∈ ws, w.1 < b.length) →
      ∀ w ∈ ws, (applyWrites b ws)[w.1]? = some w.2 := by
  induction ws with
  | nil => intro b _ _ w hw; cases hw
  | cons w0 rest ih =>
    intro b hnd hlt w hw
    rw [List.map_cons, List.nodup_cons] at hnd
    have hstep : applyWrites b (w0 :: rest) = applyWrites (b.set w0.1 w0.2) rest := rfl
    rw [hstep]
    rcases List.mem_cons.1 hw with rfl | hw
    · rw [applyWrites_get_of_not_mem rest _ _ hnd.1]
      have := hlt w (List.mem_cons_self _ _)
      simp [this]
    · refine ih _ hnd.2 (fun w' hw' => ?_) w hw
      rw [List.length_set]
      exact hlt w' (List.mem_cons_of_mem _ hw')

theorem exists_write_of_forall2 {ws : List (Nat × Char)} {alphabets : List (List Char)}
    (h : List.Forall₂ (fun (w : Nat × Char) (a : List Char) => w.2 ∈ a) ws alphabets) :
    (∀ a ∈ alphabets, ∃ w ∈ ws, w.2 ∈ a) ∧ (∀ w ∈ ws, ∃ a ∈ alphabets, w.2 ∈ a) := by
  induction h with
  | nil => simp
  | cons hwa _ ih =>
    constructor
    · intro a' ha'
      rcases List.mem_cons.1 ha' with rfl | ha'
      · exact ⟨_, List.mem_cons_self _ _, hwa⟩
      · obtain ⟨w', hw', hm⟩ := ih.1 a' ha'
        exact ⟨w', List.mem_cons_of_mem _ hw', hm⟩
    · intro w' hw'
      rcases List.mem_cons.1 hw' with rfl | hw'
      · exact ⟨_, List.mem_cons_self _ _, hwa⟩
      · obtain ⟨a', ha', hm⟩ := ih.2 w' hw'
        exact ⟨a', List.mem_cons_of_mem _ ha', hm⟩

/-- What a successful `Generate` returns, in terms of the filled buffer and the
assignments of the repair step. -/
theorem Generate_ok_writes {maxAlloc : Int} {fuel : Nat} {g : Generator} {policy : Policy} {log l : Log}
    {password : List Char}
    (h : g.Generate maxAlloc fuel policy log = .done (password, none) l) :
    ∃ (length : Int) (l1 : Log) (filled : List Char) (writes : List (Nat × Char)),
      g.pickLength policy log = .done (.ok length) l1 ∧
      0 ≤ length ∧ filled.length = length.toNat ∧
      (∀ c ∈ filled, c ∈ policy.getFullAlphabet) ∧
      password = applyWrites filled writes ∧
      List.Forall₂ (fun w a => w.2 ∈ a) writes policy.getRequiredAlphabets ∧
      (writes.map Prod.fst).Nodup ∧
      (∀ w ∈ writes, w.1 < filled.length) := by
  obtain ⟨_, length, l1, l2, bb0, bb1, hpl, hmk, hfill, hrep⟩ := Generate_ok h
  obtain ⟨hlen0, hbb0⟩ := makeBytes_some hmk
  obtain ⟨hlen1, hpos⟩ := fill_ok _ _ _ _ _ _ _ _ (le_refl 0) hfill
  obtain ⟨writes, hout, hall, hnd, hw, _⟩ := repair_ok _ _ _ _ _ _ _ _ _ hrep
  refine ⟨length, l1, bb1, writes, hpl, hlen0, by omega, ?_, hout, hall, hnd,
    fun w hw' => (hw w hw').1⟩
  intro c hc
  obtain ⟨j, hj⟩ := List.mem_iff_getElem?.1 hc
  have hjlt : j < bb1.length := by
    by_contra hge
    rw [List.getElem?_eq_none (by omega)] at hj
    cases hj
  obtain ⟨c', hc', hget⟩ := (hpos j).1 ⟨by simp, by simp; omega⟩
  rw [hj] at hget
  cases hget
  exact hc'

theorem Generate_ok_mem_fullAlphabet {maxAlloc : Int} {fuel : Nat} {g : Generator} {policy : Policy}
    {log l : Log} {password : List Char}
    (h : g.Generate maxAlloc fuel policy log = .done (password, none) l) :
    ∀ c ∈ password, c ∈ policy.getFullAlphabet := by
  obtain ⟨length, l1, filled, writes, _, _, _, hfa, hout, hall, _, _⟩ := Generate_ok_writes h
  intro c hc
  rw [hout] at hc
  rcases mem_applyWrites _ _ _ hc with hc | ⟨w, hw, rfl⟩
  · exact hfa c hc
  · obtain ⟨a, ha, hm⟩ := (exists_write_of_forall2 hall).2 w hw
    exact required_subset_fullAlphabet policy a ha _ hm

theorem Generate_ok_length {maxAlloc : Int} {fuel : Nat} {g : Generator} {policy : Policy}
    {log l : Log} {password : List Char}
    (h : g.Generate maxAlloc fuel policy log = .done (password, none) l) :
    len password = (password.length : Int) ∧
    ∃ (length : Int) (l1 : Log), g.pickLength policy log = .done (.ok length) l1 ∧
      (password.length : Int) = length := by
  refine ⟨len_eq_length_of_ascii _ fun c hc =>
    utf8Size_of_mem_fullAlphabet policy c (Generate_ok_mem_fullAlphabet h c hc), ?_⟩
  obtain ⟨length, l1, filled, writes, hpl, h0, hlen, _, hout, _, _, _⟩ := Generate_ok_writes h
  refine ⟨length, l1, hpl, ?_⟩
  rw [hout, applyWrites_length, hlen]
  omega

theorem zeroReader_inRange : zeroReader.InRange := by
  intro k n hn
  exact ⟨0, rfl, le_refl 0, hn⟩

/-- C7: every character of a password returned by `Generate` belongs to the full
alphabet, which is `LowercaseLetters ++ UppercaseLetters ++ Digits ++ Symbols`
whatever flags the policy sets. -/
theorem Generate_chars_in_fullAlphabet (maxAlloc : Int) (fuel : Nat) (g : Generator) (policy : Policy)
    (log l : Log) (password : List Char)
    (h : g.Generate maxAlloc fuel policy log = .done (password, none) l) :
    (∀ c ∈ password, c ∈ policy.getFullAlphabet) ∧
    policy.getFullAlphabet = LowercaseLetters ++ UppercaseLetters ++ Digits ++ Symbols :=
  ⟨Generate_ok_mem_fullAlphabet h, rfl⟩

theorem Generate_chars_in_fullAlphabet_witness :
    (∀ c ∈ ['a', '4', 'c', 'd'],
      c ∈ Policy.getFullAlphabet ⟨4, 4, false, false, true, false⟩) ∧
    Policy.getFullAlphabet ⟨4, 4, false, false, true, false⟩ =
      LowercaseLetters ++ UppercaseLetters ++ Digits ++ Symbols :=
  Generate_chars_in_fullAlphabet (2 ^ 48) 10 ⟨some counterReader⟩ ⟨4, 4, false, false, true, false⟩ []
    [⟨4, some 1⟩, ⟨10, some 4⟩, ⟨92, some 3⟩, ⟨92, some 2⟩, ⟨92, some 1⟩, ⟨92, some 0⟩]
    ['a', '4', 'c', 'd'] (by decide)

theorem pickLength_of_eq (g : Generator) (policy : Policy) (log : Log)
    (heq : policy.MinLength = policy.MaxLength) :
    g.pickLength policy log = .done (.ok policy.MinLength) log := by
  unfold Generator.pickLength
  rw [if_pos heq]

/-- C5: for a policy with `MinLength = MaxLength` that passes `Validate`, every
password returned by `Generate` has length exactly `MinLength` (as Go's `len` and
as a number of characters), and `pickLength` returns `MinLength` leaving the log
of draws as it was: no draw is spent on the length. -/
theorem Generate_exact_length (maxAlloc : Int) (fuel : Nat) (g : Generator) (policy : Policy)
    (log l : Log) (password : List Char)
    (heq : policy.MinLength = policy.MaxLength) (_hvalid : policy.Validate = none)
    (h : g.Generate maxAlloc fuel policy log = .done (password, none) l) :
    len password = policy.MinLength ∧ (password.length : Int) = policy.MinLength ∧
    g.pickLength policy log = .done (.ok policy.MinLength) log := by
  obtain ⟨hlen, length, l1, hpl, hpw⟩ := Generate_ok_length h
  have hpick := pickLength_of_eq g policy log heq
  rw [hpick] at hpl
  cases hpl
  exact ⟨by rw [hlen, hpw], hpw, hpick⟩

theorem Generate_exact_length_witness :
    len ['5', 'd', 'c'] = 3 ∧ ((['5', 'd', 'c'] : List Char).length : Int) = 3 ∧
    Generator.pickLength ⟨some counterReader⟩ ⟨3, 3, true, false, true, false⟩ [] =
      .done (.ok 3) [] :=
  Generate_exact_length (2 ^ 48) 10 ⟨some counterReader⟩ ⟨3, 3, true, false, true, false⟩ []
    [⟨3, some 0⟩, ⟨10, some 5⟩, ⟨3, some 1⟩, ⟨26, some 3⟩, ⟨92, some 2⟩, ⟨92, some 1⟩,
      ⟨92, some 0⟩]
    ['5', 'd', 'c'] rfl (by decide) (by decide)

theorem Generate_error_empty {maxAlloc : Int} {fuel : Nat} {g : Generator} {policy : Policy} {log l : Log}
    {s : List Char} {err : Error}
    (h : g.Generate maxAlloc fuel policy log = .done (s, some err) l) : s = [] := by
  unfold Generator.Generate at h
  split at h
  · cases h; rfl
  · split at h
    · cases h; rfl
    · split at h
      · cases h
      · cases h
      · cases h; rfl
      · split at h
        · cases h
        · split at h
          · cases h
          · cases h
          · cases h; rfl
          · split at h
            · cases h
            · cases h
            · cases h; rfl
            · cases h

/-- C10: `Generate` is all-or-nothing.  The call only adds draws to the log; if
any draw it made failed, it returned the empty string with an error; and
whenever it returns an error the returned string is empty. -/
theorem Generate_all_or_nothing (maxAlloc : Int) (fuel : Nat) (g : Generator)
    (policy : Policy) (log : Log) :
    (∃ new : Log, (g.Generate maxAlloc fuel policy log).log = new ++ log ∧
      ((∃ d ∈ new, d.result = none) →
        ∃ err, g.Generate maxAlloc fuel policy log = .done ([], some err) (new ++ log))) ∧
    (∀ (s : List Char) (err : Error) (l : Log),
      g.Generate maxAlloc fuel policy log = .done (s, some err) l → s = []) := by
  refine ⟨?_, fun s err l h => Generate_error_empty h⟩
  obtain ⟨new, hlog, himp⟩ := Generate_tracked fuel g policy log
  refine ⟨new, hlog, fun hf => ?_⟩
  obtain ⟨⟨s, e⟩, ⟨hs, he⟩, heq⟩ := himp hf
  simp only at hs he
  subst hs
  obtain ⟨err, rfl⟩ := Option.ne_none_iff_exists'.1 he
  exact ⟨err, by rw [← hlog]; exact heq⟩

/-- C3 fails on the code: for the valid policy `MinLength = 1`, `MaxLength = 2`
without required classes and a source whose draws are all `0`, `Generate`
returns the one-character password `a`, which `ValidatePassword` of the same
policy rejects because its length is below `MaxLength`. -/
theorem Generate_rejected_by_ValidatePassword :
    Policy.Validate ⟨1, 2, false, false, false, false⟩ = none ∧
    zeroReader.InRange ∧
    (∀ (maxAlloc : Int) (fuel : Nat), 1 ≤ maxAlloc →
      Generator.Generate maxAlloc fuel ⟨some zeroReader⟩ ⟨1, 2, false, false, false, false⟩ [] =
        .done (['a'], none) [⟨92, some 0⟩, ⟨2, some 0⟩]) ∧
    Policy.ValidatePassword ⟨1, 2, false, false, false, false⟩ ['a'] =
      some (.passwordLength 1 1 2) := by
  refine ⟨by decide, zeroReader_inRange, fun maxAlloc fuel hmem => ?_, by decide⟩
  have hval : Policy.Validate ⟨1, 2, false, false, false, false⟩ = none := by decide
  have hpick : Generator.pickLength ⟨some zeroReader⟩ ⟨1, 2, false, false, false, false⟩ [] =
      .done (.ok 1) [⟨2, some 0⟩] := rfl
  have hmk : makeBytes maxAlloc 1 = some [Char.ofNat 0] := by
    unfold makeBytes
    rw [if_neg (by omega)]
    rfl
  have hfill : Generator.Generate.fill ⟨some zeroReader⟩
      (Policy.getFullAlphabet ⟨1, 2, false, false, false, false⟩) (1 : Int).toNat 0
      [Char.ofNat 0] [⟨2, some 0⟩] = .done (.ok ['a']) [⟨92, some 0⟩, ⟨2, some 0⟩] := rfl
  have hrep : Generator.Generate.repair fuel ⟨some zeroReader⟩ 1
      (Policy.getRequiredAlphabets ⟨1, 2, false, false, false, false⟩) ['a'] []
      [⟨92, some 0⟩, ⟨2, some 0⟩] = .done (.ok ['a']) [⟨92, some 0⟩, ⟨2, some 0⟩] := rfl
  unfold Generator.Generate
  simp only [hval, hpick, hmk, hfill, hrep]

theorem Generate_all_or_nothing_witness :
    ∃ err, Generator.Generate (2 ^ 48) 0 ⟨some brokenReader⟩ ⟨2, 3, true, false, false, false⟩ [] =
      .done ([], some err) [⟨2, none⟩] := by
  obtain ⟨new, hlog, himp⟩ :=
    (Generate_all_or_nothing (2 ^ 48) 0 ⟨some brokenReader⟩ ⟨2, 3, true, false, false, false⟩ []).1
  have hl : (Generator.Generate (2 ^ 48) 0 ⟨some brokenReader⟩
      ⟨2, 3, true, false, false, false⟩ []).log = [⟨2, none⟩] := by decide
  rw [hl, List.append_nil] at hlog
  subst hlog
  simpa using himp ⟨_, List.mem_singleton_self _, rfl⟩

/-- A buffer in which every position was assigned exactly once is a
rearrangement of the assigned bytes. -/
theorem perm_of_writes (pw : List Char) (ws : List (Nat × Char))
    (hnd : (ws.map Prod.fst).Nodup) (hlen : ws.length = pw.length)
    (hget : ∀ w ∈ ws, pw[w.1]? = some w.2) : pw.Perm (ws.map Prod.snd) := by
  have hsub : ws.map Prod.fst ⊆ List.range pw.length := by
    intro p hp
    obtain ⟨w, hw, rfl⟩ := List.mem_map.1 hp
    rw [List.mem_range]
    by_contra hge
    have := hget w hw
    rw [List.getElem?_eq_none (by omega)] at this
    cases this
  have hperm : (ws.map Prod.fst).Perm (List.range pw.length) :=
    (List.subperm_of_subset hnd hsub).perm_of_length_le (by simp [hlen])
  have h1 : ws.map Prod.snd = (ws.map Prod.fst).map (fun p => pw.getD p default) := by
    rw [List.map_map]
    apply List.map_congr_left
    intro w hw
    simp [List.getD, hget w hw]
  have h2 : pw = (List.range pw.length).map (fun p => pw.getD p default) := by
    apply List.ext_getElem
    · simp
    · intro n hn1 hn2
      simp [List.getD, List.getElem?_eq_getElem hn1]
  rw [h1]
  conv_lhs => rw [h2]
  exact (hperm.map _).symm

/-! ## Sources that are in range -/

theorem wrapInt_of_range (x : Int) (h1 : -2 ^ 63 ≤ x) (h2 : x < 2 ^ 63) : wrapInt x = x := by
  unfold wrapInt
  omega

theorem counterReader_inRange : counterReader.InRange := by
  intro k n hn
  exact ⟨(k : Int) % n, rfl, Int.emod_nonneg _ (by omega), Int.emod_lt_of_pos _ hn⟩

theorem counterReader_fair : counterReader.Fair := by
  intro k n forbidden hlen
  have hn : 0 < n := lt_of_le_of_lt (Int.ofNat_nonneg _) hlen
  obtain ⟨m, rfl⟩ : ∃ m : Nat, n = (m : Int) := ⟨n.toNat, by omega⟩
  have hm : 0 < m := by omega
  have hfree : ∃ i, i < m ∧ ((i : Nat) : Int) ∉ forbidden := by
    by_contra hall
    push_neg at hall
    have hsub : (List.range m).map (fun i : Nat => (i : Int)) ⊆ forbidden := by
      intro x hx
      obtain ⟨i, hi, rfl⟩ := List.mem_map.1 hx
      exact hall i (List.mem_range.1 hi)
    have hnd : ((List.range m).map (fun i : Nat => (i : Int))).Nodup :=
      (List.nodup_range m).map (fun a b hab => by simpa using hab)
    have := (List.subperm_of_subset hnd hsub).length_le
    simp at this
    omega
  obtain ⟨i, hi, hfree⟩ := hfree
  refine ⟨i + (m - k % m), (i : Int), ?_, hfree⟩
  simp only [counterReader]
  congr 1
  have hk : (k + (i + (m - k % m))) % m = i := by
    have hdiv := Nat.div_add_mod k m
    have hlt := Nat.mod_lt k hm
    have : k + (i + (m - k % m)) = i + m * (k / m + 1) := by
      rw [Nat.mul_add, Nat.mul_one]
      omega
    rw [this, Nat.add_mul_mod_self_left, Nat.mod_eq_of_lt hi]
  exact_mod_cast hk

theorem randInt_inRange {r : Reader} (hr : r.InRange) (n : Int) (hn : 0 < n) (log : Log) :
    ∃ v, Generator.randInt ⟨some r⟩ n log = .done (.ok v) (⟨n, some v⟩ :: log) ∧
      0 ≤ v ∧ v < n := by
  obtain ⟨v, hv, h0, h1⟩ := hr log.length n hn
  refine ⟨v, ?_, h0, h1⟩
  unfold Generator.randInt
  rw [if_neg (by omega)]
  simp [hv]

theorem randomElement_inRange {r : Reader} (hr : r.InRange) (s : List Char)
    (hs : 0 < len s) (hascii : len s = (s.length : Int)) (log : Log) :
    ∃ c l, Generator.randomElement ⟨some r⟩ s log = .done (.ok c) l := by
  obtain ⟨v, hv, h0, h1⟩ := randInt_inRange hr (len s) hs log
  have hlt : v.toNat < s.length := by omega
  have hidx : index s v = some (s.get ⟨v.toNat, hlt⟩) := by
    unfold index
    rw [if_neg (by omega), List.get?_eq_get hlt]
  refine ⟨s.get ⟨v.toNat, hlt⟩, { bound := len s, result := some v } :: log, ?_⟩
  unfold Generator.randomElement
  rw [hv]
  simp only [hidx]

theorem fill_progress {r : Reader} (hr : r.InRange) (fullAlphabet : List Char)
    (hs : 0 < len fullAlphabet) (hascii : len fullAlphabet = (fullAlphabet.length : Int))
    (n : Nat) : ∀ (i : Int) (resultBB : List Char) (log : Log), 0 ≤ i →
      i.toNat + n ≤ resultBB.length →
      ∃ out l, Generator.Generate.fill ⟨some r⟩ fullAlphabet n i resultBB log =
        .done (.ok out) l := by
  induction n with
  | zero =>
    intro i resultBB log _ _
    exact ⟨resultBB, log, rfl⟩
  | succ n ih =>
    intro i resultBB log hi hlen
    obtain ⟨c, l1, hc⟩ := randomElement_inRange hr fullAlphabet hs hascii log
    have hst : store resultBB i c = some (resultBB.set i.toNat c) := by
      unfold store
      rw [if_pos ⟨hi, by omega⟩]
    obtain ⟨out, l, hout⟩ := ih (i + 1) (resultBB.set i.toNat c) l1 (by omega)
      (by rw [List.length_set]; omega)
    refine ⟨out, l, ?_⟩
    unfold Generator.Generate.fill
    rw [hc]
    simp only [hst]
    exact hout

theorem randIntExcept_loop_exit (g : Generator) (n : Int) (forbidden : List Int) (fuel : Nat)
    (value : Int) (log : Log) (h : value ∉ forbidden) :
    Generator.randIntExcept.loop g n forbidden fuel value log = .done (.ok value) log := by
  unfold Generator.randIntExcept.loop
  simp [isIntInSet, h]

theorem randIntExcept_loop_retry (g : Generator) (n : Int) (forbidden : List Int) (fuel : Nat)
    (value v : Int) (log l : Log) (h : value ∈ forbidden)
    (hdraw : g.randInt n log = .done (.ok v) l) :
    Generator.randIntExcept.loop g n forbidden (fuel + 1) value log =
      Generator.randIntExcept.loop g n forbidden fuel v l := by
  conv_lhs => unfold Generator.randIntExcept.loop
  simp [isIntInSet, h, hdraw]

theorem randIntExcept_loop_progress {r : Reader} (hr : r.InRange) (n : Int) (hn : 0 < n)
    (forbidden : List Int) :
    ∀ (j : Nat) (value : Int) (log : Log), 0 ≤ value → value < n →
      (∃ v, r.draw (log.length + j) n = some v ∧ v ∉ forbidden) →
      ∃ p l, 0 ≤ p ∧ p < n ∧ ∀ fuel, j < fuel →
        Generator.randIntExcept.loop ⟨some r⟩ n forbidden fuel value log = .done (.ok p) l := by
  intro j
  induction j with
  | zero =>
    intro value log h0 h1 hex
    by_cases hmem : value ∈ forbidden
    · obtain ⟨v, hv, hfree⟩ := hex
      obtain ⟨v', hdraw, hv0, hv1⟩ := randInt_inRange hr n hn log
      have hvv : v' = v := by
        obtain ⟨_, r', hr', hd, _⟩ := randInt_ok hdraw
        cases hr'
        rw [Nat.add_zero] at hv
        rw [hv] at hd
        cases hd
        rfl
      subst hvv
      refine ⟨v', { bound := n, result := some v' } :: log, hv0, hv1, fun fuel hfuel => ?_⟩
      obtain ⟨f, rfl⟩ : ∃ f, fuel = f + 1 := ⟨fuel - 1, by omega⟩
      rw [randIntExcept_loop_retry _ _ _ _ _ _ _ _ hmem hdraw]
      exact randIntExcept_loop_exit _ _ _ _ _ _ hfree
    · exact ⟨value, log, h0, h1, fun fuel _ => randIntExcept_loop_exit _ _ _ _ _ _ hmem⟩
  | succ j ih =>
    intro value log h0 h1 hex
    by_cases hmem : value ∈ forbidden
    · obtain ⟨v0, hdraw, hv0, hv1⟩ := randInt_inRange hr n hn log
      have hex' : ∃ v, r.draw ((({ bound := n, result := some v0 } : DrawRecord) :: log).length + j) n
          = some v ∧ v ∉ forbidden := by
        obtain ⟨v, hv, hfree⟩ := hex
        refine ⟨v, ?_, hfree⟩
        rw [← hv]
        congr 1
        simp only [List.length_cons]
        omega
      obtain ⟨p, l, hp0, hp1, hloop⟩ := ih v0 _ hv0 hv1 hex'
      refine ⟨p, l, hp0, hp1, fun fuel hfuel => ?_⟩
      obtain ⟨f, rfl⟩ : ∃ f, fuel = f + 1 := ⟨fuel - 1, by omega⟩
      rw [randIntExcept_loop_retry _ _ _ _ _ _ _ _ hmem hdraw]
      exact hloop f (by omega)
    · exact ⟨value, log, h0, h1, fun fuel _ => randIntExcept_loop_exit _ _ _ _ _ _ hmem⟩

theorem randIntExcept_progress {r : Reader} (hr : r.InRange) (hf : r.Fair) (n : Int)
    (forbidden : List Int) (hlen : (forbidden.length : Int) < n) (log : Log) :
    ∃ fuel0 p l, 0 ≤ p ∧ p < n ∧ ∀ fuel, fuel0 ≤ fuel →
      Generator.randIntExcept fuel ⟨some r⟩ n forbidden log = .done (.ok p) l := by
  have hn : 0 < n := lt_of_le_of_lt (Int.ofNat_nonneg _) hlen
  obtain ⟨v0, hdraw, hv0, hv1⟩ := randInt_inRange hr n hn log
  obtain ⟨j, v, hv, hfree⟩ :=
    hf (({ bound := n, result := some v0 } : DrawRecord) :: log).length n forbidden hlen
  obtain ⟨p, l, hp0, hp1, hloop⟩ :=
    randIntExcept_loop_progress hr n hn forbidden j v0 _ hv0 hv1 ⟨v, hv, hfree⟩
  refine ⟨j + 1, p, l, hp0, hp1, fun fuel hfuel => ?_⟩
  unfold Generator.randIntExcept
  rw [if_neg (by omega), hdraw]
  exact hloop fuel (by omega)

theorem repair_progress {r : Reader} (hr : r.InRange) (hf : r.Fair) (length : Int)
    (alphabets : List (List Char)) :
    (∀ a ∈ alphabets, 0 < len a ∧ len a = (a.length : Int)) →
    ∀ (resultBB : List Char) (used : List Int) (log : Log),
      (resultBB.length : Int) = length →
      (used.length : Int) + alphabets.length ≤ length →
      ∃ fuel0 out l, ∀ fuel, fuel0 ≤ fuel →
        Generator.Generate.repair fuel ⟨some r⟩ length alphabets resultBB used log =
          .done (.ok out) l := by
  induction alphabets with
  | nil =>
    intro _ resultBB used log _ _
    exact ⟨0, resultBB, log, fun fuel _ => rfl⟩
  | cons alphabet rest ih =>
    intro hal resultBB used log hbb hcount
    have ha := hal alphabet (List.mem_cons_self _ _)
    obtain ⟨c, l1, hc⟩ := randomElement_inRange hr alphabet ha.1 ha.2 log
    simp only [List.length_cons] at hcount
    push_cast at hcount
    obtain ⟨f1, p, l2, hp0, hp1, hpos⟩ :=
      randIntExcept_progress hr hf length used (by omega) l1
    have hpu : p ∉ used := (randIntExcept_ok (hpos f1 (le_refl _))).1
    have hst : store resultBB p c = some (resultBB.set p.toNat c) := by
      unfold store
      rw [if_pos ⟨hp0, by omega⟩]
    obtain ⟨f2, out, l, hrest⟩ := ih (fun a h => hal a (List.mem_cons_of_mem _ h))
      (resultBB.set p.toNat c) (List.insert p used) l2 (by rw [List.length_set]; exact hbb)
      (by rw [List.length_insert_of_not_mem hpu]; push_cast; omega)
    refine ⟨max f1 f2, out, l, fun fuel hfuel => ?_⟩
    unfold Generator.Generate.repair
    rw [hc]
    simp only
    rw [hpos fuel (le_trans (le_max_left _ _) hfuel)]
    simp only [hst]
    exact hrest fuel (le_trans (le_max_right _ _) hfuel)

theorem pickLength_inRange {r : Reader} (hr : r.InRange) (policy : Policy) (log : Log)
    (h0 : 0 ≤ policy.MinLength) (hle : policy.MinLength ≤ policy.MaxLength)
    (hint : policy.MaxLength < 2 ^ 63)
    (hfit : policy.MaxLength - policy.MinLength + 1 < 2 ^ 63) :
    ∃ length l, Generator.pickLength ⟨some r⟩ policy log = .done (.ok length) l ∧
      policy.MinLength ≤ length ∧ length ≤ policy.MaxLength := by
  by_cases heq : policy.MinLength = policy.MaxLength
  · exact ⟨policy.MinLength, log, pickLength_of_eq _ policy log heq, le_refl _, hle⟩
  · have hw : wrapInt (policy.MaxLength - policy.MinLength + 1) =
        policy.MaxLength - policy.MinLength + 1 :=
      wrapInt_of_range _ (by omega) (by omega)
    obtain ⟨v, hv, hv0, hv1⟩ :=
      randInt_inRange hr (policy.MaxLength - policy.MinLength + 1) (by omega) log
    refine ⟨policy.MinLength + v,
      { bound := policy.MaxLength - policy.MinLength + 1, result := some v } :: log, ?_,
      by omega, by omega⟩
    unfold Generator.pickLength
    rw [if_neg heq]
    simp only [hw, hv]
    rw [wrapInt_of_range _ (by omega) (by omega)]

theorem required_indexable (p : Policy) :
    ∀ a ∈ p.getRequiredAlphabets, 0 < len a ∧ len a = (a.length : Int) := by
  intro a ha
  rcases mem_getRequiredAlphabets p a ha with rfl | rfl | rfl | rfl <;> decide

theorem fullAlphabet_indexable (p : Policy) :
    0 < len p.getFullAlphabet ∧ len p.getFullAlphabet = (p.getFullAlphabet.length : Int) := by
  unfold Policy.getFullAlphabet
  decide

/-- C1, amended: for every policy that passes `Validate` with
`MinLength ≤ MaxLength`, where `MaxLength` is a value of type `int`, the bound
`MaxLength - MinLength + 1` does not overflow and a buffer of `MaxLength` bytes
can be allocated, and for every source whose draws for bound `n` lie in `[0, n)`
and whose repeated draws do not stay inside a set of fewer than `n` positions
for ever, `Generate` returns (for every large enough iteration budget) a
password and no error; its length is within `[MinLength, MaxLength]` and it has
a character of every required alphabet. -/
theorem Generate_returns_password (maxAlloc : Int) (r : Reader) (policy : Policy) (log : Log)
    (hvalid : policy.Validate = none) (hle : policy.MinLength ≤ policy.MaxLength)
    (hint : policy.MaxLength < 2 ^ 63)
    (hfit : policy.MaxLength - policy.MinLength + 1 < 2 ^ 63)
    (hmem : policy.MaxLength ≤ maxAlloc) (hr : r.InRange) (hf : r.Fair) :
    ∃ (fuel0 : Nat) (password : List Char) (l : Log),
      (∀ fuel, fuel0 ≤ fuel →
        Generator.Generate maxAlloc fuel ⟨some r⟩ policy log = .done (password, none) l) ∧
      policy.MinLength ≤ len password ∧ len password ≤ policy.MaxLength ∧
      ∀ a ∈ policy.getRequiredAlphabets, ∃ c ∈ password, c ∈ a := by
  have hdti : policy.differentTypesIncluded ≤ policy.MinLength := by
    unfold Policy.Validate at hvalid
    split at hvalid
    · cases hvalid
    · omega
  have hreq := length_getRequiredAlphabets policy
  have h0 : 0 ≤ policy.MinLength := by omega
  obtain ⟨length, l1, hpl, hl0, hl1⟩ := pickLength_inRange hr policy log h0 hle hint hfit
  have hmk : makeBytes maxAlloc length = some (List.replicate length.toNat (Char.ofNat 0)) := by
    unfold makeBytes
    rw [if_neg (by omega)]
  have hfa := fullAlphabet_indexable policy
  obtain ⟨bb1, l2, hfill⟩ := fill_progress hr policy.getFullAlphabet hfa.1 hfa.2 length.toNat 0
    (List.replicate length.toNat (Char.ofNat 0)) l1 (le_refl 0) (by simp)
  have hbb1 : bb1.length = length.toNat := by
    rw [(fill_ok _ _ _ _ _ _ _ _ (le_refl 0) hfill).1, List.length_replicate]
  obtain ⟨fuel0, out, l, hrep⟩ := repair_progress hr hf length policy.getRequiredAlphabets
    (required_indexable policy) bb1 [] l2 (by omega) (by simp only [List.length_nil]; omega)
  have hgen : ∀ fuel, fuel0 ≤ fuel →
      Generator.Generate maxAlloc fuel ⟨some r⟩ policy log = .done (out, none) l := by
    intro fuel hfuel
    unfold Generator.Generate
    simp only [hvalid, hpl, hmk, hfill, hrep fuel hfuel]
  have hdone := hgen fuel0 (le_refl _)
  obtain ⟨hlen, length', l1', hpl', hpw⟩ := Generate_ok_length hdone
  rw [hpl] at hpl'
  cases hpl'
  refine ⟨fuel0, out, l, hgen, by omega, by omega, fun a ha => ?_⟩
  obtain ⟨_, _, filled, writes, _, _, _, _, hout, hall, hnd, hlt⟩ := Generate_ok_writes hdone
  obtain ⟨w, hw, hwa⟩ := (exists_write_of_forall2 hall).1 a ha
  refine ⟨w.2, ?_, hwa⟩
  rw [hout]
  exact List.getElem?_mem (applyWrites_get writes filled hnd hlt w hw)

theorem Generate_returns_password_witness :
    ∃ (fuel0 : Nat) (password : List Char) (l : Log),
      (∀ fuel, fuel0 ≤ fuel →
        Generator.Generate (2 ^ 48) fuel ⟨some counterReader⟩ ⟨2, 5, true, false, true, false⟩ [] =
          .done (password, none) l) ∧
      (2 : Int) ≤ len password ∧ len password ≤ 5 ∧
      ∀ a ∈ Policy.getRequiredAlphabets ⟨2, 5, true, false, true, false⟩,
        ∃ c ∈ password, c ∈ a :=
  Generate_returns_password (2 ^ 48) counterReader ⟨2, 5, true, false, true, false⟩ [] (by decide)
    (by decide) (by decide) (by decide) (by decide) counterReader_inRange counterReader_fair

theorem zeroReader_randInt (n : Int) (hn : 0 < n) (log : Log) :
    Generator.randInt ⟨some zeroReader⟩ n log = .done (.ok 0) (⟨n, some 0⟩ :: log) := by
  unfold Generator.randInt
  rw [if_neg (by omega)]
  rfl

theorem zeroReader_loop_running (n : Int) (hn : 0 < n) (forbidden : List Int)
    (h0 : (0 : Int) ∈ forbidden) (fuel : Nat) : ∀ log : Log,
      Generator.randIntExcept.loop ⟨some zeroReader⟩ n forbidden fuel 0 log =
        .running (List.replicate fuel ⟨n, some 0⟩ ++ log) := by
  induction fuel with
  | zero =>
    intro log
    unfold Generator.randIntExcept.loop
    simp [isIntInSet, h0]
  | succ fuel ih =>
    intro log
    rw [randIntExcept_loop_retry _ _ _ _ _ _ _ _ h0 (zeroReader_randInt n hn log), ih]
    congr 1
    rw [List.replicate_succ', List.append_assoc]
    rfl

theorem zeroReader_randIntExcept_running (n : Int) (hn : 0 < n) (forbidden : List Int)
    (h0 : (0 : Int) ∈ forbidden) (hlen : (forbidden.length : Int) < n) (fuel : Nat)
    (log : Log) :
    Generator.randIntExcept fuel ⟨some zeroReader⟩ n forbidden log =
      .running (List.replicate (fuel + 1) ⟨n, some 0⟩ ++ log) := by
  unfold Generator.randIntExcept
  rw [if_neg (by omega), zeroReader_randInt n hn log]
  simp only
  rw [zeroReader_loop_running n hn forbidden h0]
  congr 1
  rw [List.replicate_succ', List.append_assoc]
  rfl

theorem zeroReader_randIntExcept_first (n : Int) (hn : 0 < n) (fuel : Nat) (log : Log) :
    Generator.randIntExcept fuel ⟨some zeroReader⟩ n [] log =
      .done (.ok 0) (⟨n, some 0⟩ :: log) := by
  unfold Generator.randIntExcept
  rw [if_neg (by simpa using hn), zeroReader_randInt n hn log]
  simp only
  exact randIntExcept_loop_exit _ _ _ _ _ _ (by simp)

/-- C1 fails on the code in four ways, each at a policy that passes `Validate`
and with the in-range source whose draws are all `0`: with `MinLength = 5`,
`MaxLength = 3` the call panics (`rand.Int` is asked for a bound `-1`); with
`MinLength = 0`, `MaxLength = 2^63 - 1` it panics as well (the bound wraps around
to `-2^63`); with `MinLength = MaxLength = 2^62` it crashes in `make` whenever
fewer than `2^62` bytes can be allocated; with `MinLength = MaxLength = 2` and
two required classes it is still redrawing the second position after any number
of iterations. -/
theorem Generate_valid_policy_counterexample :
    zeroReader.InRange ∧
    (Policy.Validate ⟨5, 3, false, false, false, false⟩ = none ∧
      ∀ (maxAlloc : Int) (fuel : Nat),
        Generator.Generate maxAlloc fuel ⟨some zeroReader⟩ ⟨5, 3, false, false, false, false⟩ [] =
          .panic []) ∧
    (Policy.Validate ⟨0, 2 ^ 63 - 1, false, false, false, false⟩ = none ∧
      ∀ (maxAlloc : Int) (fuel : Nat),
        Generator.Generate maxAlloc fuel ⟨some zeroReader⟩
          ⟨0, 2 ^ 63 - 1, false, false, false, false⟩ [] = .panic []) ∧
    (Policy.Validate ⟨2 ^ 62, 2 ^ 62, false, false, false, false⟩ = none ∧
      ∀ (maxAlloc : Int) (fuel : Nat), maxAlloc < 2 ^ 62 →
        Generator.Generate maxAlloc fuel ⟨some zeroReader⟩
          ⟨2 ^ 62, 2 ^ 62, false, false, false, false⟩ [] = .panic []) ∧
    (Policy.Validate ⟨2, 2, true, true, false, false⟩ = none ∧
      ∀ (maxAlloc : Int) (fuel : Nat), 2 ≤ maxAlloc →
        Generator.Generate maxAlloc fuel ⟨some zeroReader⟩ ⟨2, 2, true, true, false, false⟩ [] =
          .running (List.replicate (fuel + 1) ⟨2, some 0⟩ ++
            [⟨26, some 0⟩, ⟨2, some 0⟩, ⟨26, some 0⟩, ⟨92, some 0⟩, ⟨92, some 0⟩])) := by
  refine ⟨zeroReader_inRange, ⟨by decide, fun maxAlloc fuel => rfl⟩,
    ⟨by decide, fun maxAlloc fuel => rfl⟩, ⟨by decide, fun maxAlloc fuel hmem => ?_⟩,
    by decide, fun maxAlloc fuel hmem => ?_⟩
  · have hval : Policy.Validate ⟨2 ^ 62, 2 ^ 62, false, false, false, false⟩ = none := by decide
    have hpick : Generator.pickLength ⟨some zeroReader⟩
        ⟨2 ^ 62, 2 ^ 62, false, false, false, false⟩ [] = .done (.ok (2 ^ 62)) [] := rfl
    have hmk : makeBytes maxAlloc (2 ^ 62) = none := by
      unfold makeBytes
      rw [if_pos (Or.inr hmem)]
    unfold Generator.Generate
    simp only [hval, hpick, hmk]
  have hfill : Generator.Generate.fill ⟨some zeroReader⟩
      (Policy.getFullAlphabet ⟨2, 2, true, true, false, false⟩) (2 : Int).toNat 0
      (List.replicate (2 : Int).toNat (Char.ofNat 0)) [] =
      .done (.ok ['a', 'a']) [⟨92, some 0⟩, ⟨92, some 0⟩] := rfl
  have hlow : Generator.randomElement ⟨some zeroReader⟩ LowercaseLetters
      [⟨92, some 0⟩, ⟨92, some 0⟩] =
      .done (.ok 'a') [⟨26, some 0⟩, ⟨92, some 0⟩, ⟨92, some 0⟩] := rfl
  have hupp : Generator.randomElement ⟨some zeroReader⟩ UppercaseLetters
      [⟨2, some 0⟩, ⟨26, some 0⟩, ⟨92, some 0⟩, ⟨92, some 0⟩] =
      .done (.ok 'A') [⟨26, some 0⟩, ⟨2, some 0⟩, ⟨26, some 0⟩, ⟨92, some 0⟩, ⟨92, some 0⟩] :=
    rfl
  have hstore : store ['a', 'a'] 0 'a' = some ['a', 'a'] := by decide
  have hreq : Policy.getRequiredAlphabets ⟨2, 2, true, true, false, false⟩ =
      [LowercaseLetters, UppercaseLetters] := by decide
  have hval : Policy.Validate ⟨2, 2, true, true, false, false⟩ = none := by decide
  have hpick : Generator.pickLength ⟨some zeroReader⟩ ⟨2, 2, true, true, false, false⟩ [] =
      .done (.ok 2) [] := rfl
  have hmk : makeBytes maxAlloc 2 = some (List.replicate (2 : Int).toNat (Char.ofNat 0)) := by
    unfold makeBytes
    rw [if_neg (by omega)]
  unfold Generator.Generate
  simp only [hval, hpick, hmk, hfill, hreq]
  unfold Generator.Generate.repair
  simp only [hlow, zeroReader_randIntExcept_first 2 (by decide), hstore]
  unfold Generator.Generate.repair
  simp only [hupp]
  rw [zeroReader_randIntExcept_running 2 (by decide) _ (by decide) (by decide)]

theorem classes_disjoint :
    (∀ c ∈ UppercaseLetters, c ∉ LowercaseLetters) ∧
    (∀ c ∈ Digits, c ∉ LowercaseLetters) ∧
    (∀ c ∈ Symbols, c ∉ LowercaseLetters) ∧
    (∀ c ∈ LowercaseLetters, c ∉ UppercaseLetters) ∧
    (∀ c ∈ Digits, c ∉ UppercaseLetters) ∧
    (∀ c ∈ Symbols, c ∉ UppercaseLetters) ∧
    (∀ c ∈ LowercaseLetters, c ∉ Digits) ∧
    (∀ c ∈ UppercaseLetters, c ∉ Digits) ∧
    (∀ c ∈ Symbols, c ∉ Digits) ∧
    (∀ c ∈ LowercaseLetters, c ∉ Symbols) ∧
    (∀ c ∈ UppercaseLetters, c ∉ Symbols) ∧
    (∀ c ∈ Digits, c ∉ Symbols) := by
  decide

/-- C6: the positions overwritten in the repair step of `Generate` are pairwise
distinct: a returned password is the filled buffer after one assignment per
required alphabet, in order, at pairwise distinct positions, each of which still
holds its character at the end.  So for the policy that requires all four
classes with `MinLength = MaxLength = 4` every returned password has 4
characters, is a rearrangement of one lowercase letter, one uppercase letter,
one digit and one symbol, and has exactly one character of each class. -/
theorem Generate_positions_distinct (maxAlloc : Int) (fuel : Nat) (g : Generator) (policy : Policy)
    (log l : Log) (password : List Char)
    (h : g.Generate maxAlloc fuel policy log = .done (password, none) l) :
    (∃ (filled : List Char) (writes : List (Nat × Char)),
      password = applyWrites filled writes ∧
      List.Forall₂ (fun w a => w.2 ∈ a) writes policy.getRequiredAlphabets ∧
      (writes.map Prod.fst).Nodup ∧
      ∀ w ∈ writes, w.1 < password.length ∧ password[w.1]? = some w.2) ∧
    (policy = ⟨4, 4, true, true, true, true⟩ →
      password.length = 4 ∧
      ∃ (p₁ p₂ p₃ p₄ : Nat) (c₁ c₂ c₃ c₄ : Char),
        [p₁, p₂, p₃, p₄].Nodup ∧
        c₁ ∈ LowercaseLetters ∧ c₂ ∈ UppercaseLetters ∧ c₃ ∈ Digits ∧ c₄ ∈ Symbols ∧
        password[p₁]? = some c₁ ∧ password[p₂]? = some c₂ ∧
        password[p₃]? = some c₃ ∧ password[p₄]? = some c₄ ∧
        password.Perm [c₁, c₂, c₃, c₄] ∧
        password.countP (fun c => decide (c ∈ LowercaseLetters)) = 1 ∧
        password.countP (fun c => decide (c ∈ UppercaseLetters)) = 1 ∧
        password.countP (fun c => decide (c ∈ Digits)) = 1 ∧
        password.countP (fun c => decide (c ∈ Symbols)) = 1) := by
  obtain ⟨length, l1, filled, writes, hpl, _, hlen, _, hout, hall, hnd, hlt⟩ :=
    Generate_ok_writes h
  have hpwlen : password.length = filled.length := by rw [hout, applyWrites_length]
  have hget := applyWrites_get writes filled hnd hlt
  rw [← hout] at hget
  refine ⟨⟨filled, writes, hout, hall, hnd, fun w hw => ⟨?_, hget w hw⟩⟩, ?_⟩
  · rw [hpwlen]
    exact hlt w hw
  intro hpolicy
  subst hpolicy
  rw [pickLength_of_eq g ⟨4, 4, true, true, true, true⟩ log rfl] at hpl
  cases hpl
  have hfl : filled.length = 4 := hlen
  have hreq : Policy.getRequiredAlphabets ⟨4, 4, true, true, true, true⟩ =
      [LowercaseLetters, UppercaseLetters, Digits, Symbols] := rfl
  rw [hreq] at hall
  rw [hfl] at hpwlen
  cases hall with
  | cons h1 hall =>
  cases hall with
  | cons h2 hall =>
  cases hall with
  | cons h3 hall =>
  cases hall with
  | cons h4 hall =>
  cases hall
  rename_i w₁ w₂ w₃ w₄
  have hperm : password.Perm [w₁.2, w₂.2, w₃.2, w₄.2] :=
    perm_of_writes password [w₁, w₂, w₃, w₄] hnd (by rw [hpwlen]; rfl) hget
  obtain ⟨hUL, hDL, hSL, hLU, hDU, hSU, hLD, hUD, hSD, hLS, hUS, hDS⟩ := classes_disjoint
  refine ⟨hpwlen, w₁.1, w₂.1, w₃.1, w₄.1, w₁.2, w₂.2, w₃.2, w₄.2, hnd, h1, h2, h3, h4,
    hget w₁ (by simp), hget w₂ (by simp), hget w₃ (by simp), hget w₄ (by simp), hperm,
    ?_, ?_, ?_, ?_⟩
  · rw [hperm.countP_eq]
    simp [List.countP_cons, h1, hUL _ h2, hDL _ h3, hSL _ h4]
  · rw [hperm.countP_eq]
    simp [List.countP_cons, h2, hLU _ h1, hDU _ h3, hSU _ h4]
  · rw [hperm.countP_eq]
    simp [List.countP_cons, h3, hLD _ h1, hUD _ h2, hSD _ h4]
  · rw [hperm.countP_eq]
    simp [List.countP_cons, h4, hLS _ h1, hUS _ h2, hDS _ h3]

theorem Generate_positions_distinct_witness :
    (['_', 'e', '8', 'G'] : List Char).length = 4 ∧
    ∃ (p₁ p₂ p₃ p₄ : Nat) (c₁ c₂ c₃ c₄ : Char),
      [p₁, p₂, p₃, p₄].Nodup ∧
      c₁ ∈ LowercaseLetters ∧ c₂ ∈ UppercaseLetters ∧ c₃ ∈ Digits ∧ c₄ ∈ Symbols ∧
      (['_', 'e', '8', 'G'] : List Char)[p₁]? = some c₁ ∧
      (['_', 'e', '8', 'G'] : List Char)[p₂]? = some c₂ ∧
      (['_', 'e', '8', 'G'] : List Char)[p₃]? = some c₃ ∧
      (['_', 'e', '8', 'G'] : List Char)[p₄]? = some c₄ ∧
      (['_', 'e', '8', 'G'] : List Char).Perm [c₁, c₂, c₃, c₄] ∧
      (['_', 'e', '8', 'G'] : List Char).countP (fun c => decide (c ∈ LowercaseLetters)) = 1 ∧
      (['_', 'e', '8', 'G'] : List Char).countP (fun c => decide (c ∈ UppercaseLetters)) = 1 ∧
      (['_', 'e', '8', 'G'] : List Char).countP (fun c => decide (c ∈ Digits)) = 1 ∧
      (['_', 'e', '8', 'G'] : List Char).countP (fun c => decide (c ∈ Symbols)) = 1 :=
  (Generate_positions_distinct (2 ^ 48) 10 ⟨some counterReader⟩ ⟨4, 4, true, true, true, true⟩ []
    [⟨4, some 0⟩, ⟨30, some 11⟩, ⟨4, some 2⟩, ⟨4, some 1⟩, ⟨10, some 8⟩, ⟨4, some 3⟩,
      ⟨26, some 6⟩, ⟨4, some 1⟩, ⟨26, some 4⟩, ⟨92, some 3⟩, ⟨92, some 2⟩, ⟨92, some 1⟩,
      ⟨92, some 0⟩]
    ['_', 'e', '8', 'G'] (by decide)).2 rfl

/-- C11, amended: `LowercaseLetters` has 26 characters, `UppercaseLetters` has 26,
`Digits` has 10 and `Symbols` has 30 (as characters and as bytes): it is the set
of the 32 ASCII punctuation characters without the apostrophe and the semicolon. -/
theorem alphabet_sizes :
    LowercaseLetters.length = 26 ∧ UppercaseLetters.length = 26 ∧ Digits.length = 10 ∧
    Symbols.length = 30 ∧
    len LowercaseLetters = 26 ∧ len UppercaseLetters = 26 ∧ len Digits = 10 ∧
    len Symbols = 30 ∧
    Char.ofNat 39 ∉ Symbols ∧ Char.ofNat 59 ∉ Symbols ∧
    (∀ n : Nat, 33 ≤ n → n ≤ 126 → Char.ofNat n ∉ LowercaseLetters ++ UppercaseLetters ++ Digits →
      n ≠ 39 → n ≠ 59 → Char.ofNat n ∈ Symbols) := by
  refine ⟨by decide, by decide, by decide, by decide, by decide, by decide, by decide,
    by decide, by decide, by decide, ?_⟩
  intro n h1 h2
  interval_cases n <;> decide

/-- C11 fails on the code: `Symbols` does not have 32 characters. -/
theorem alphabet_sizes_counterexample :
    ¬ (LowercaseLetters.length = 26 ∧ UppercaseLetters.length = 26 ∧ Digits.length = 10 ∧
      Symbols.length = 32) := by
  decide

/-- C12: `getRequiredAlphabets` returns exactly the class strings of the flags
that are set, in the fixed order lowercase, uppercase, digit, symbol: it is a
sublist of the four constants, a class is present exactly when its flag is set,
no entry is an empty string, and the length of the list is the number of set
flags that `Validate` counts. -/
theorem getRequiredAlphabets_spec (p : Policy) :
    p.getRequiredAlphabets = p.requiredAlphabetsSpec ∧
    List.Sublist p.getRequiredAlphabets
      [LowercaseLetters, UppercaseLetters, Digits, Symbols] ∧
    (LowercaseLetters ∈ p.getRequiredAlphabets ↔ p.RequireLowercase = true) ∧
    (UppercaseLetters ∈ p.getRequiredAlphabets ↔ p.RequireUppercase = true) ∧
    (Digits ∈ p.getRequiredAlphabets ↔ p.RequireDigit = true) ∧
    (Symbols ∈ p.getRequiredAlphabets ↔ p.RequireSymbol = true) ∧
    [] ∉ p.getRequiredAlphabets ∧
    (p.getRequiredAlphabets.length : Int) = p.differentTypesIncluded ∧
    p.getRequiredAlphabets.length =
      [p.RequireLowercase, p.RequireUppercase, p.RequireDigit, p.RequireSymbol].count true := by
  have key : ∀ f1 f2 f3 f4 : Bool,
      List.Sublist (Policy.getRequiredAlphabets ⟨0, 0, f1, f2, f3, f4⟩)
        [LowercaseLetters, UppercaseLetters, Digits, Symbols] ∧
      (LowercaseLetters ∈ Policy.getRequiredAlphabets ⟨0, 0, f1, f2, f3, f4⟩ ↔ f1 = true) ∧
      (UppercaseLetters ∈ Policy.getRequiredAlphabets ⟨0, 0, f1, f2, f3, f4⟩ ↔ f2 = true) ∧
      (Digits ∈ Policy.getRequiredAlphabets ⟨0, 0, f1, f2, f3, f4⟩ ↔ f3 = true) ∧
      (Symbols ∈ Policy.getRequiredAlphabets ⟨0, 0, f1, f2, f3, f4⟩ ↔ f4 = true) ∧
      [] ∉ Policy.getRequiredAlphabets ⟨0, 0, f1, f2, f3, f4⟩ := by
    decide
  rcases p with ⟨mn, mx, f1, f2, f3, f4⟩
  have hsame : Policy.getRequiredAlphabets ⟨mn, mx, f1, f2, f3, f4⟩ =
      Policy.getRequiredAlphabets ⟨0, 0, f1, f2, f3, f4⟩ := rfl
  obtain ⟨k1, k2, k3, k4, k5, k6⟩ := key f1 f2 f3 f4
  rw [hsame]
  refine ⟨?_, k1, k2, k3, k4, k5, k6, ?_, ?_⟩ <;>
    cases f1 <;> cases f2 <;> cases f3 <;> cases f4 <;> rfl

/-- C19: the four class alphabets have no repeated character and are pairwise
disjoint, so the full alphabet has no repeated character, each of its characters
belongs to exactly one class, and a character of one class never satisfies the
check of `validateOverAlphabet` for another class. -/
theorem alphabets_disjoint :
    (LowercaseLetters.Nodup ∧ UppercaseLetters.Nodup ∧ Digits.Nodup ∧ Symbols.Nodup) ∧
    (List.Disjoint LowercaseLetters UppercaseLetters ∧ List.Disjoint LowercaseLetters Digits ∧
      List.Disjoint LowercaseLetters Symbols ∧ List.Disjoint UppercaseLetters Digits ∧
      List.Disjoint UppercaseLetters Symbols ∧ List.Disjoint Digits Symbols) ∧
    (∀ p : Policy, p.getFullAlphabet.Nodup) ∧
    (∀ p : Policy, ∀ c ∈ p.getFullAlphabet,
      [LowercaseLetters, UppercaseLetters, Digits, Symbols].countP
        (fun a => decide (c ∈ a)) = 1) ∧
    (∀ a ∈ [LowercaseLetters, UppercaseLetters, Digits, Symbols],
      ∀ b ∈ [LowercaseLetters, UppercaseLetters, Digits, Symbols], a ≠ b →
        ∀ c ∈ a, validateOverAlphabet [c] b = false) := by
  have hnd : (LowercaseLetters ++ UppercaseLetters ++ Digits ++ Symbols).Nodup := by decide
  have hone : ∀ c ∈ LowercaseLetters ++ UppercaseLetters ++ Digits ++ Symbols,
      [LowercaseLetters, UppercaseLetters, Digits, Symbols].countP
        (fun a => decide (c ∈ a)) = 1 := by decide
  refine ⟨by decide, ?_, fun _ => hnd, fun _ => hone, by decide⟩
  simp only [List.disjoint_left]
  decide

theorem len_append (p s : List Char) : len (p ++ s) = len p + len s := by
  unfold len
  rw [List.map_append, List.sum_append]
  push_cast
  rfl

theorem len_nonneg (s : List Char) : 0 ≤ len s := by
  unfold len
  exact Int.ofNat_nonneg _

/-- C20: `ValidatePassword` is monotone under extension: if it accepts `p` it
accepts `p ++ s` for every `s`.  It has no upper length limit: with
`MinLength = 1` and `MaxLength = 2` it accepts the three-character candidate
`abc`. -/
theorem ValidatePassword_append (policy : Policy) (p s : List Char)
    (h : policy.ValidatePassword p = none) :
    policy.ValidatePassword (p ++ s) = none ∧
    Policy.ValidatePassword ⟨1, 2, false, false, false, false⟩ ['a', 'b', 'c'] = none := by
  refine ⟨?_, by decide⟩
  unfold Policy.ValidatePassword at h ⊢
  split at h
  · cases h
  · next hlen =>
    have hs := len_nonneg s
    rw [if_neg (by rw [len_append]; omega)]
    by_contra hne
    obtain ⟨a, ha, hall⟩ := (ValidatePassword_loop_iff (p ++ s) policy.getRequiredAlphabets).1 hne
    have : Policy.ValidatePassword.loop p policy.getRequiredAlphabets ≠ none :=
      (ValidatePassword_loop_iff p policy.getRequiredAlphabets).2
        ⟨a, ha, fun c hc => hall c (List.mem_append_left _ hc)⟩
    exact this h

theorem ValidatePassword_append_witness :
    Policy.ValidatePassword ⟨2, 2, true, false, true, false⟩ (['a', '1'] ++ ['z', 'z', 'z']) = none ∧
    Policy.ValidatePassword ⟨1, 2, false, false, false, false⟩ ['a', 'b', 'c'] = none :=
  ValidatePassword_append ⟨2, 2, true, false, true, false⟩ ['a', '1'] ['z', 'z', 'z']
    (by decide)

/-- C17, amended: when `MinLength = MaxLength`, `pickLength` returns `MinLength`
without a draw.  When `MinLength < MaxLength` are values of type `int` and
`MaxLength - MinLength + 1` does not overflow, it makes exactly one draw, with
exclusive bound `MaxLength - MinLength + 1`: a failed draw gives an error, a draw
`v` in `[0, MaxLength - MinLength]` gives the length `MinLength + v`, which lies in
`[MinLength, MaxLength]`, and every length of that range comes from exactly one
such draw. -/
theorem pickLength_spec (r : Reader) (policy : Policy) (log : Log) :
    (policy.MinLength = policy.MaxLength →
      Generator.pickLength ⟨some r⟩ policy log = .done (.ok policy.MinLength) log) ∧
    (policy.MinLength < policy.MaxLength → -2 ^ 63 ≤ policy.MinLength →
      policy.MaxLength < 2 ^ 63 → policy.MaxLength - policy.MinLength + 1 < 2 ^ 63 →
      (r.draw log.length (policy.MaxLength - policy.MinLength + 1) = none →
        Generator.pickLength ⟨some r⟩ policy log =
          .done (.error (.pickLengthDraw (policy.MaxLength - policy.MinLength + 1)
            (.randInt .readerFailure)))
            (⟨policy.MaxLength - policy.MinLength + 1, none⟩ :: log)) ∧
      (∀ v, r.draw log.length (policy.MaxLength - policy.MinLength + 1) = some v →
        0 ≤ v → v ≤ policy.MaxLength - policy.MinLength →
        Generator.pickLength ⟨some r⟩ policy log =
          .done (.ok (policy.MinLength + v))
            (⟨policy.MaxLength - policy.MinLength + 1, some v⟩ :: log) ∧
        policy.MinLength ≤ policy.MinLength + v ∧
        policy.MinLength + v ≤ policy.MaxLength) ∧
      (∀ length, policy.MinLength ≤ length → length ≤ policy.MaxLength →
        ∃! v, (0 ≤ v ∧ v ≤ policy.MaxLength - policy.MinLength) ∧
          policy.MinLength + v = length)) := by
  refine ⟨fun heq => pickLength_of_eq _ policy log heq, fun hlt hmin hmax hfit => ?_⟩
  have hw : wrapInt (policy.MaxLength - policy.MinLength + 1) =
      policy.MaxLength - policy.MinLength + 1 :=
    wrapInt_of_range _ (by omega) (by omega)
  have hne : ¬ policy.MinLength = policy.MaxLength := by omega
  have hpos : ¬ policy.MaxLength - policy.MinLength + 1 ≤ 0 := by omega
  refine ⟨fun hdraw => ?_, fun v hdraw hv0 hv1 => ⟨?_, by omega, by omega⟩,
    fun length h1 h2 => ⟨length - policy.MinLength, ⟨⟨by omega, by omega⟩, by omega⟩, ?_⟩⟩
  · unfold Generator.pickLength
    rw [if_neg hne]
    simp only [hw]
    unfold Generator.randInt
    rw [if_neg hpos]
    simp only [hdraw]
  · unfold Generator.pickLength
    rw [if_neg hne]
    simp only [hw]
    unfold Generator.randInt
    rw [if_neg hpos]
    simp only [hdraw]
    rw [wrapInt_of_range _ (by omega) (by omega)]
  · rintro v ⟨_, hv⟩
    omega

theorem pickLength_spec_witness :
    ∀ v, counterReader.draw ([] : Log).length (5 - 2 + 1) = some v → 0 ≤ v → v ≤ 5 - 2 →
      Generator.pickLength ⟨some counterReader⟩ ⟨2, 5, true, false, true, false⟩ [] =
        .done (.ok (2 + v)) [⟨5 - 2 + 1, some v⟩] ∧
      (2 : Int) ≤ 2 + v ∧ 2 + v ≤ 5 :=
  ((pickLength_spec counterReader ⟨2, 5, true, false, true, false⟩ []).2
    (by decide) (by decide) (by decide) (by decide)).2.1

/-- C17 fails on the code when the bound overflows: with `MinLength = 0` and
`MaxLength = 2^63 - 1` the bound computed by `pickLength` is `-2^63`, and the call
panics inside `rand.Int` for every reader.  It also panics when
`MinLength = 5` and `MaxLength = 3`, where the bound is `-1`. -/
theorem pickLength_spec_counterexample :
    ((0 : Int) < 2 ^ 63 - 1 ∧ wrapInt (2 ^ 63 - 1 - 0 + 1) = -2 ^ 63 ∧
      ∀ (r : Reader) (log : Log),
        Generator.pickLength ⟨some r⟩ ⟨0, 2 ^ 63 - 1, false, false, false, false⟩ log =
          .panic log) ∧
    (wrapInt (3 - 5 + 1) = -1 ∧
      ∀ (r : Reader) (log : Log),
        Generator.pickLength ⟨some r⟩ ⟨5, 3, false, false, false, false⟩ log = .panic log) := by
  refine ⟨⟨by decide, by decide, fun r log => rfl⟩, by decide, fun r log => rfl⟩

theorem fill_trace (g : Generator) (fullAlphabet : List Char) (n : Nat) :
    ∀ (i : Int) (resultBB : List Char) (log l : Log) (out : List Char), 0 ≤ i →
      Generator.Generate.fill g fullAlphabet n i resultBB log = .done (.ok out) l →
      ∃ draws : List Int, draws.length = n ∧
        l = draws.reverse.map (fun v => (⟨len fullAlphabet, some v⟩ : DrawRecord)) ++ log ∧
        ∀ (j : Nat) (v : Int), draws[j]? = some v →
          out[i.toNat + j]? = index fullAlphabet v ∧ (index fullAlphabet v).isSome := by
  induction n with
  | zero =>
    intro i resultBB log l out _ h
    unfold Generator.Generate.fill at h
    cases h
    exact ⟨[], rfl, rfl, fun j v hj => by simp at hj⟩
  | succ n ih =>
    intro i resultBB log l out hi h
    have hfill := h
    unfold Generator.Generate.fill at h
    split at h
    · cases h
    · cases h
    · cases h
    · next c l1 hc =>
      split at h
      · cases h
      · next bb1 hst =>
        obtain ⟨v, hdraw, hidx⟩ := randomElement_ok hc
        obtain ⟨_, _, _, _, hl1⟩ := randInt_ok hdraw
        obtain ⟨_, hlt, hbb1⟩ := store_some hst
        obtain ⟨draws, hlen, hl, hpos⟩ := ih (i + 1) bb1 l1 l out (by omega) h
        obtain ⟨_, hframe⟩ := fill_ok g fullAlphabet n (i + 1) bb1 l1 l out (by omega) h
        have htn : (i + 1).toNat = i.toNat + 1 := by omega
        refine ⟨v :: draws, by simp [hlen], ?_, ?_⟩
        · rw [hl, hl1]
          simp
        · intro j w hj
          cases j with
          | zero =>
            simp only [List.getElem?_cons_zero, Option.some.injEq] at hj
            subst hj
            refine ⟨?_, by simp [hidx]⟩
            rw [Nat.add_zero, (hframe i.toNat).2 (by omega), hbb1, hidx]
            simp [hlt]
          | succ j =>
            simp only [List.getElem?_cons_succ] at hj
            have := hpos j w hj
            rw [htn] at this
            rw [show i.toNat + (j + 1) = i.toNat + 1 + j by omega]
            exact this

/-- C18: in a successful `Generate` for a policy with `k` required classes the
repair step makes `k` assignments at pairwise distinct positions of the buffer,
the `i`-th with a character of the `i`-th required alphabet (in the order
lowercase, uppercase, digit, symbol), and each of them is still there in the
returned password; every other position of the returned password holds what the
filler pass left there, which for position `j` is the character of the full
alphabet selected by the `j`-th filler draw. -/
theorem Generate_repair_frame (maxAlloc : Int) (fuel : Nat) (g : Generator) (policy : Policy) (log l : Log)
    (password : List Char)
    (h : g.Generate maxAlloc fuel policy log = .done (password, none) l) :
    ∃ (length : Int) (l1 l2 : Log) (bb0 filled : List Char) (draws : List Int)
      (writes : List (Nat × Char)),
      g.pickLength policy log = .done (.ok length) l1 ∧
      makeBytes maxAlloc length = some bb0 ∧
      Generator.Generate.fill g policy.getFullAlphabet length.toNat 0 bb0 l1 =
        .done (.ok filled) l2 ∧
      (draws.length : Int) = length ∧
      l2 = draws.reverse.map
        (fun v => (⟨len policy.getFullAlphabet, some v⟩ : DrawRecord)) ++ l1 ∧
      (∀ (j : Nat) (v : Int), draws[j]? = some v →
        filled[j]? = index policy.getFullAlphabet v) ∧
      password.length = filled.length ∧ (filled.length : Int) = length ∧
      (writes.length : Int) = policy.differentTypesIncluded ∧
      List.Forall₂ (fun w a => w.2 ∈ a) writes policy.getRequiredAlphabets ∧
      (writes.map Prod.fst).Nodup ∧
      (∀ w ∈ writes, w.1 < password.length ∧ password[w.1]? = some w.2) ∧
      (∀ j : Nat, j ∉ writes.map Prod.fst → password[j]? = filled[j]?) := by
  obtain ⟨_, length, l1, l2, bb0, filled, hpl, hmk, hfill, hrep⟩ := Generate_ok h
  obtain ⟨hlen0, hbb0⟩ := makeBytes_some hmk
  obtain ⟨hlen1, _⟩ := fill_ok _ _ _ _ _ _ _ _ (le_refl 0) hfill
  obtain ⟨draws, hdl, hl2, hdraws⟩ := fill_trace _ _ _ _ _ _ _ _ (le_refl 0) hfill
  obtain ⟨writes, hout, hall, hnd, hw, _⟩ := repair_ok _ _ _ _ _ _ _ _ _ hrep
  have hlt : ∀ w ∈ writes, w.1 < filled.length := fun w hw' => (hw w hw').1
  have hpw : password.length = filled.length := by rw [hout, applyWrites_length]
  refine ⟨length, l1, l2, bb0, filled, draws, writes, hpl, hmk, hfill, by omega, hl2,
    fun j v hj => ?_, hpw, by omega, ?_, hall, hnd, fun w hw' => ⟨?_, ?_⟩, fun j hj => ?_⟩
  · have := (hdraws j v hj).1
    simpa using this
  · rw [← length_getRequiredAlphabets, hall.length_eq]
  · rw [hpw]
    exact hlt w hw'
  · rw [hout]
    exact applyWrites_get writes filled hnd hlt w hw'
  · rw [hout]
    exact applyWrites_get_of_not_mem writes filled j hj

theorem Generate_repair_frame_witness :
    ∃ (length : Int) (l1 l2 : Log) (bb0 filled : List Char) (draws : List Int)
      (writes : List (Nat × Char)),
      Generator.pickLength ⟨some counterReader⟩ ⟨3, 3, true, false, true, false⟩ [] =
        .done (.ok length) l1 ∧
      makeBytes (2 ^ 48) length = some bb0 ∧
      Generator.Generate.fill ⟨some counterReader⟩
        (Policy.getFullAlphabet ⟨3, 3, true, false, true, false⟩) length.toNat 0 bb0 l1 =
        .done (.ok filled) l2 ∧
      (draws.length : Int) = length ∧
      l2 = draws.reverse.map
        (fun v => (⟨len (Policy.getFullAlphabet ⟨3, 3, true, false, true, false⟩), some v⟩ :
          DrawRecord)) ++ l1 ∧
      (∀ (j : Nat) (v : Int), draws[j]? = some v →
        filled[j]? = index (Policy.getFullAlphabet ⟨3, 3, true, false, true, false⟩) v) ∧
      (['5', 'd', 'c'] : List Char).length = filled.length ∧ (filled.length : Int) = length ∧
      (writes.length : Int) = Policy.differentTypesIncluded ⟨3, 3, true, false, true, false⟩ ∧
      List.Forall₂ (fun w a => w.2 ∈ a) writes
        (Policy.getRequiredAlphabets ⟨3, 3, true, false, true, false⟩) ∧
      (writes.map Prod.fst).Nodup ∧
      (∀ w ∈ writes, w.1 < (['5', 'd', 'c'] : List Char).length ∧
        (['5', 'd', 'c'] : List Char)[w.1]? = some w.2) ∧
      (∀ j : Nat, j ∉ writes.map Prod.fst → (['5', 'd', 'c'] : List Char)[j]? = filled[j]?) :=
  Generate_repair_frame (2 ^ 48) 10 ⟨some counterReader⟩ ⟨3, 3, true, false, true, false⟩ []
    [⟨3, some 0⟩, ⟨10, some 5⟩, ⟨3, some 1⟩, ⟨26, some 3⟩, ⟨92, some 2⟩, ⟨92, some 1⟩,
      ⟨92, some 0⟩]
    ['5', 'd', 'c'] (by decide)

/-- For a valid policy with `MinLength ≤ MaxLength`, a bound that does not
overflow and a buffer that can be allocated, and an in-range source that leaves
every proper set of positions, `Generate` returns a password once the iteration
budget is large enough. -/
theorem Generate_progress {maxAlloc : Int} {r : Reader} (policy : Policy) (log : Log)
    (hvalid : policy.Validate = none) (hle : policy.MinLength ≤ policy.MaxLength)
    (hint : policy.MaxLength < 2 ^ 63)
    (hfit : policy.MaxLength - policy.MinLength + 1 < 2 ^ 63)
    (hmem : policy.MaxLength ≤ maxAlloc) (hr : r.InRange) (hf : r.Fair) :
    ∃ (fuel0 : Nat) (password : List Char) (l : Log), ∀ fuel, fuel0 ≤ fuel →
      Generator.Generate maxAlloc fuel ⟨some r⟩ policy log = .done (password, none) l := by
  have hdti : policy.differentTypesIncluded ≤ policy.MinLength := by
    unfold Policy.Validate at hvalid
    split at hvalid
    · cases hvalid
    · omega
  have hreq := length_getRequiredAlphabets policy
  obtain ⟨length, l1, hpl, hl0, hl1⟩ :=
    pickLength_inRange hr policy log (by omega) hle hint hfit
  have hmk : makeBytes maxAlloc length = some (List.replicate length.toNat (Char.ofNat 0)) := by
    unfold makeBytes
    rw [if_neg (by omega)]
  have hfa := fullAlphabet_indexable policy
  obtain ⟨bb1, l2, hfill⟩ := fill_progress hr policy.getFullAlphabet hfa.1 hfa.2 length.toNat 0
    (List.replicate length.toNat (Char.ofNat 0)) l1 (le_refl 0) (by simp)
  have hbb1 : bb1.length = length.toNat := by
    rw [(fill_ok _ _ _ _ _ _ _ _ (le_refl 0) hfill).1, List.length_replicate]
  obtain ⟨fuel0, out, l, hrep⟩ := repair_progress hr hf length policy.getRequiredAlphabets
    (required_indexable policy) bb1 [] l2 (by omega) (by simp only [List.length_nil]; omega)
  refine ⟨fuel0, out, l, fun fuel hfuel => ?_⟩
  unfold Generator.Generate
  simp only [hvalid, hpl, hmk, hfill, hrep fuel hfuel]

/-- C13: `GenerateStrong(minLen, maxLen)` is `Generate` of a generator on
`rand.Reader` applied to `NewStrongPolicy(minLen, maxLen)`, the policy with the
given bounds and all four flags set.  Every string `GenerateStrong(8, 8)`
returns, whatever the source does, has 8 characters (and 8 bytes) with at least
one lowercase letter, one uppercase letter, one digit and one symbol; and it does
return one when 8 bytes can be allocated and the draws from the source succeed
in range and leave every proper set of positions. -/
theorem GenerateStrong_spec (maxAlloc : Int) (randReader : Reader) (log : Log)
    (hmem : 8 ≤ maxAlloc) (hr : randReader.InRange) (hf : randReader.Fair) :
    (∀ (fuel : Nat) (minLen maxLen : Int),
      GenerateStrong maxAlloc fuel randReader minLen maxLen log =
        Generator.Generate maxAlloc fuel (NewGenerator randReader) (NewStrongPolicy minLen maxLen) log ∧
      NewStrongPolicy minLen maxLen = ⟨minLen, maxLen, true, true, true, true⟩) ∧
    (∃ (fuel0 : Nat) (password : List Char) (l : Log), ∀ fuel, fuel0 ≤ fuel →
      GenerateStrong maxAlloc fuel randReader 8 8 log = .done (password, none) l) ∧
    (∀ (anyLimit : Int) (fuel : Nat) (anyReader : Reader) (log' l : Log)
      (password : List Char),
      GenerateStrong anyLimit fuel anyReader 8 8 log' = .done (password, none) l →
      password.length = 8 ∧ len password = 8 ∧
      (∃ c ∈ password, c ∈ LowercaseLetters) ∧ (∃ c ∈ password, c ∈ UppercaseLetters) ∧
      (∃ c ∈ password, c ∈ Digits) ∧ (∃ c ∈ password, c ∈ Symbols)) := by
  refine ⟨fun fuel minLen maxLen => ⟨rfl, rfl⟩, ?_, ?_⟩
  · exact Generate_progress (NewStrongPolicy 8 8) log (by decide) (by decide) (by decide)
      (by decide) hmem hr hf
  · intro anyLimit fuel anyReader log' l password h
    have h' : Generator.Generate anyLimit fuel ⟨some anyReader⟩ (NewStrongPolicy 8 8) log' =
        .done (password, none) l := h
    obtain ⟨hlen, length, l1, hpl, hpw⟩ := Generate_ok_length h'
    rw [pickLength_of_eq _ (NewStrongPolicy 8 8) log' rfl] at hpl
    cases hpl
    have hpw8 : password.length = 8 := by
      have : (password.length : Int) = 8 := hpw
      omega
    obtain ⟨_, _, filled, writes, _, _, _, _, hout, hall, hnd, hlt⟩ := Generate_ok_writes h'
    have hclass : ∀ a ∈ (NewStrongPolicy 8 8).getRequiredAlphabets, ∃ c ∈ password, c ∈ a := by
      intro a ha
      obtain ⟨w, hw, hwa⟩ := (exists_write_of_forall2 hall).1 a ha
      refine ⟨w.2, ?_, hwa⟩
      rw [hout]
      exact List.getElem?_mem (applyWrites_get writes filled hnd hlt w hw)
    refine ⟨hpw8, by rw [hlen, hpw]; rfl, hclass _ ?_, hclass _ ?_, hclass _ ?_, hclass _ ?_⟩ <;>
      decide

theorem GenerateStrong_spec_witness :
    ∃ (fuel0 : Nat) (password : List Char) (l : Log), ∀ fuel, fuel0 ≤ fuel →
      GenerateStrong (2 ^ 48) fuel counterReader 8 8 [] = .done (password, none) l :=
  (GenerateStrong_spec (2 ^ 48) counterReader [] (by decide) counterReader_inRange
    counterReader_fair).2.1

theorem zeroReader_Generate_running (maxAlloc : Int) (policy : Policy) (log : Log)
    (hvalid : policy.Validate = none) (hle : policy.MinLength ≤ policy.MaxLength)
    (hint : policy.MaxLength < 2 ^ 63)
    (hfit : policy.MaxLength - policy.MinLength + 1 < 2 ^ 63)
    (hmem : policy.MaxLength ≤ maxAlloc) (htwo : 2 ≤ policy.getRequiredAlphabets.length)
    (fuel : Nat) :
    ∃ l, Generator.Generate maxAlloc fuel ⟨some zeroReader⟩ policy log = .running l := by
  have hr := zeroReader_inRange
  have hdti : policy.differentTypesIncluded ≤ policy.MinLength := by
    unfold Policy.Validate at hvalid
    split at hvalid
    · cases hvalid
    · omega
  have hreq := length_getRequiredAlphabets policy
  have hal := required_indexable policy
  obtain ⟨length, l1, hpl, hl0, hl1⟩ :=
    pickLength_inRange hr policy log (by omega) hle hint hfit
  have hmk : makeBytes maxAlloc length = some (List.replicate length.toNat (Char.ofNat 0)) := by
    unfold makeBytes
    rw [if_neg (by omega)]
  have hfa := fullAlphabet_indexable policy
  obtain ⟨bb1, l2, hfill⟩ := fill_progress hr policy.getFullAlphabet hfa.1 hfa.2 length.toNat 0
    (List.replicate length.toNat (Char.ofNat 0)) l1 (le_refl 0) (by simp)
  have hbb1 : bb1.length = length.toNat := by
    rw [(fill_ok _ _ _ _ _ _ _ _ (le_refl 0) hfill).1, List.length_replicate]
  have hlen2 : (2 : Int) ≤ length := by omega
  cases hlist : policy.getRequiredAlphabets with
  | nil => rw [hlist] at htwo; simp at htwo
  | cons a1 tail =>
    cases tail with
    | nil => rw [hlist] at htwo; simp at htwo
    | cons a2 rest =>
      rw [hlist] at hal
      obtain ⟨c1, l3, hc1⟩ := randomElement_inRange hr a1 (hal a1 (by simp)).1
        (hal a1 (by simp)).2 l2
      have hst : store bb1 0 c1 = some (bb1.set 0 c1) := by
        unfold store
        rw [if_pos ⟨le_refl 0, by omega⟩]
        rfl
      obtain ⟨c2, l5, hc2⟩ := randomElement_inRange hr a2 (hal a2 (by simp)).1
        (hal a2 (by simp)).2 (⟨length, some 0⟩ :: l3)
      have hins : List.insert (0 : Int) [] = [0] := rfl
      refine ⟨List.replicate (fuel + 1) ⟨length, some 0⟩ ++ l5, ?_⟩
      unfold Generator.Generate
      simp only [hvalid, hpl, hmk, hfill, hlist]
      unfold Generator.Generate.repair
      simp only [hc1, zeroReader_randIntExcept_first length (by omega), hst]
      unfold Generator.Generate.repair
      simp only [hc2, hins]
      rw [zeroReader_randIntExcept_running length (by omega) _ (by simp)
        (by simp only [List.length_singleton]; omega)]

/-- C15, amended: redrawing a position in the repair step has no bound.  For
every policy on which `Validate` fails, and for every policy that passes it with
`MinLength ≤ MaxLength`, a bound `MaxLength - MinLength + 1` that does not
overflow and a buffer of `MaxLength` bytes that can be allocated, `Generate`
terminates with a return (a password or an error) for every source whose draws
are in range and leave every proper set of positions.  With the source whose
draws are all `0` and such a valid policy with two or more required classes,
`Generate` is still redrawing after any number of iterations. -/
theorem Generate_terminates (maxAlloc : Int) (r : Reader) (policy : Policy) (log : Log)
    (hpolicy : policy.Validate ≠ none ∨
      (policy.MinLength ≤ policy.MaxLength ∧ policy.MaxLength < 2 ^ 63 ∧
        policy.MaxLength - policy.MinLength + 1 < 2 ^ 63 ∧ policy.MaxLength ≤ maxAlloc))
    (hr : r.InRange) (hf : r.Fair) :
    (∃ (fuel0 : Nat) (result : List Char × Option Error) (l : Log), ∀ fuel, fuel0 ≤ fuel →
      Generator.Generate maxAlloc fuel ⟨some r⟩ policy log = .done result l) ∧
    (∀ (p : Policy) (log' : Log), p.Validate = none → p.MinLength ≤ p.MaxLength →
      p.MaxLength < 2 ^ 63 → p.MaxLength - p.MinLength + 1 < 2 ^ 63 →
      p.MaxLength ≤ maxAlloc → 2 ≤ p.getRequiredAlphabets.length →
      ∀ fuel : Nat, ∃ l,
        Generator.Generate maxAlloc fuel ⟨some zeroReader⟩ p log' = .running l) := by
  refine ⟨?_, fun p log' h1 h2 h3 h4 h5 h6 fuel =>
    zeroReader_Generate_running maxAlloc p log' h1 h2 h3 h4 h5 h6 fuel⟩
  cases hval : policy.Validate with
  | some err =>
    refine ⟨0, ([], some (.invalidPolicy err)), log, fun fuel _ => ?_⟩
    unfold Generator.Generate
    simp only [hval]
  | none =>
    rcases hpolicy with hne | ⟨hle, hint, hfit, hmem⟩
    · exact absurd hval hne
    · obtain ⟨fuel0, password, l, h⟩ :=
        Generate_progress policy log hval hle hint hfit hmem hr hf
      exact ⟨fuel0, (password, none), l, h⟩

theorem Generate_terminates_witness :
    ∃ (fuel0 : Nat) (result : List Char × Option Error) (l : Log), ∀ fuel, fuel0 ≤ fuel →
      Generator.Generate (2 ^ 48) fuel ⟨some counterReader⟩ ⟨4, 6, true, true, true, true⟩ [] =
        .done result l :=
  (Generate_terminates (2 ^ 48) counterReader ⟨4, 6, true, true, true, true⟩ []
    (Or.inr ⟨by decide, by decide, by decide, by decide⟩) counterReader_inRange
    counterReader_fair).1

/-- C15 fails on the code: redrawing a position is not bounded.  With the
in-range source whose draws are all `0` and the valid policy that requires all
four classes with `MinLength = MaxLength = 4`, `Generate` is still redrawing the
position of the second class after any number of iterations; for the valid
policy `MinLength = 7`, `MaxLength = 6` it panics; and for the valid policy
`MinLength = MaxLength = 2^50` it crashes in `make` whenever fewer than `2^50`
bytes can be allocated. -/
theorem Generate_terminates_counterexample :
    zeroReader.InRange ∧
    (Policy.Validate (NewStrongPolicy 4 4) = none ∧
      ∀ (maxAlloc : Int) (fuel : Nat), 4 ≤ maxAlloc →
        Generator.Generate maxAlloc fuel ⟨some zeroReader⟩ (NewStrongPolicy 4 4) [] =
          .running (List.replicate (fuel + 1) ⟨4, some 0⟩ ++
            [⟨26, some 0⟩, ⟨4, some 0⟩, ⟨26, some 0⟩, ⟨92, some 0⟩, ⟨92, some 0⟩,
              ⟨92, some 0⟩, ⟨92, some 0⟩])) ∧
    (Policy.Validate ⟨7, 6, false, false, true, false⟩ = none ∧
      ∀ (maxAlloc : Int) (fuel : Nat),
        Generator.Generate maxAlloc fuel ⟨some zeroReader⟩ ⟨7, 6, false, false, true, false⟩ [] =
          .panic []) ∧
    (Policy.Validate ⟨2 ^ 50, 2 ^ 50, false, false, true, false⟩ = none ∧
      ∀ (maxAlloc : Int) (fuel : Nat), maxAlloc < 2 ^ 50 →
        Generator.Generate maxAlloc fuel ⟨some zeroReader⟩
          ⟨2 ^ 50, 2 ^ 50, false, false, true, false⟩ [] = .panic []) := by
  refine ⟨zeroReader_inRange, ⟨by decide, fun maxAlloc fuel hmem => ?_⟩,
    ⟨by decide, fun maxAlloc fuel => rfl⟩, by decide, fun maxAlloc fuel hmem => ?_⟩
  swap
  · have hval : Policy.Validate ⟨2 ^ 50, 2 ^ 50, false, false, true, false⟩ = none := by decide
    have hpick : Generator.pickLength ⟨some zeroReader⟩
        ⟨2 ^ 50, 2 ^ 50, false, false, true, false⟩ [] = .done (.ok (2 ^ 50)) [] := rfl
    have hmk : makeBytes maxAlloc (2 ^ 50) = none := by
      unfold makeBytes
      rw [if_pos (Or.inr hmem)]
    unfold Generator.Generate
    simp only [hval, hpick, hmk]
  have hfill : Generator.Generate.fill ⟨some zeroReader⟩
      (Policy.getFullAlphabet (NewStrongPolicy 4 4)) (4 : Int).toNat 0
      (List.replicate (4 : Int).toNat (Char.ofNat 0)) [] =
      .done (.ok ['a', 'a', 'a', 'a'])
        [⟨92, some 0⟩, ⟨92, some 0⟩, ⟨92, some 0⟩, ⟨92, some 0⟩] := rfl
  have hlow : Generator.randomElement ⟨some zeroReader⟩ LowercaseLetters
      [⟨92, some 0⟩, ⟨92, some 0⟩, ⟨92, some 0⟩, ⟨92, some 0⟩] =
      .done (.ok 'a') [⟨26, some 0⟩, ⟨92, some 0⟩, ⟨92, some 0⟩, ⟨92, some 0⟩, ⟨92, some 0⟩] :=
    rfl
  have hupp : Generator.randomElement ⟨some zeroReader⟩ UppercaseLetters
      [⟨4, some 0⟩, ⟨26, some 0⟩, ⟨92, some 0⟩, ⟨92, some 0⟩, ⟨92, some 0⟩, ⟨92, some 0⟩] =
      .done (.ok 'A') [⟨26, some 0⟩, ⟨4, some 0⟩, ⟨26, some 0⟩, ⟨92, some 0⟩, ⟨92, some 0⟩,
        ⟨92, some 0⟩, ⟨92, some 0⟩] := rfl
  have hstore : store ['a', 'a', 'a', 'a'] 0 'a' = some ['a', 'a', 'a', 'a'] := by decide
  have hreq : Policy.getRequiredAlphabets (NewStrongPolicy 4 4) =
      [LowercaseLetters, UppercaseLetters, Digits, Symbols] := by decide
  have hval : Policy.Validate (NewStrongPolicy 4 4) = none := by decide
  have hpick : Generator.pickLength ⟨some zeroReader⟩ (NewStrongPolicy 4 4) [] =
      .done (.ok 4) [] := rfl
  have hmk : makeBytes maxAlloc 4 = some (List.replicate (4 : Int).toNat (Char.ofNat 0)) := by
    unfold makeBytes
    rw [if_neg (by omega)]
  unfold Generator.Generate
  simp only [hval, hpick, hmk, hfill, hreq]
  unfold Generator.Generate.repair
  simp only [hlow, zeroReader_randIntExcept_first 4 (by decide), hstore]
  unfold Generator.Generate.repair
  simp only [hupp]
  rw [zeroReader_randIntExcept_running 4 (by decide) _ (by decide) (by decide)]

theorem randInt_cases (r : Reader) (n : Int) (hn : 0 < n) (log : Log) :
    (r.draw log.length n = none ∧
      Generator.randInt ⟨some r⟩ n log =
        .done (.error (.randInt .readerFailure)) (⟨n, none⟩ :: log)) ∨
    (∃ v, r.draw log.length n = some v ∧
      Generator.randInt ⟨some r⟩ n log = .done (.ok v) (⟨n, some v⟩ :: log)) := by
  cases hd : r.draw log.length n with
  | none =>
    refine Or.inl ⟨rfl, ?_⟩
    unfold Generator.randInt
    rw [if_neg (by omega)]
    simp only [hd]
  | some v =>
    refine Or.inr ⟨v, rfl, ?_⟩
    unfold Generator.randInt
    rw [if_neg (by omega)]
    simp only [hd]

theorem randomElement_safe {r : Reader} (hb : r.Bounded) (s : List Char)
    (hs : 0 < len s) (hascii : len s = (s.length : Int)) (log : Log) :
    ∃ x l, Generator.randomElement ⟨some r⟩ s log = .done x l := by
  unfold Generator.randomElement
  rcases randInt_cases r (len s) hs log with ⟨_, h⟩ | ⟨v, hd, h⟩
  · rw [h]
    exact ⟨_, _, rfl⟩
  · rw [h]
    obtain ⟨h0, h1⟩ := hb _ _ _ hs hd
    have hlt : v.toNat < s.length := by omega
    have hidx : index s v = some (s.get ⟨v.toNat, hlt⟩) := by
      unfold index
      rw [if_neg (by omega), List.get?_eq_get hlt]
    simp only [hidx]
    exact ⟨_, _, rfl⟩

theorem randIntExcept_loop_safe {r : Reader} (hb : r.Bounded) (n : Int) (hn : 0 < n)
    (forbidden : List Int) (fuel : Nat) :
    ∀ (value : Int) (log : Log) (o : Run (Except Error Int)), 0 ≤ value → value < n →
      Generator.randIntExcept.loop ⟨some r⟩ n forbidden fuel value log = o →
      (∀ l, o ≠ .panic l) ∧ (∀ p l, o = .done (.ok p) l → 0 ≤ p ∧ p < n) := by
  induction fuel with
  | zero =>
    intro value log o h0 h1 ho
    unfold Generator.randIntExcept.loop at ho
    split at ho
    · subst ho
      exact ⟨(fun l h => by cases h), (fun p l h => by cases h)⟩
    · subst ho
      exact ⟨(fun l h => by cases h), (fun p l h => by cases h; exact ⟨h0, h1⟩)⟩
  | succ fuel ih =>
    intro value log o h0 h1 ho
    unfold Generator.randIntExcept.loop at ho
    split at ho
    · simp only at ho
      rcases randInt_cases r n hn log with ⟨_, h⟩ | ⟨v, hd, h⟩
      · rw [h] at ho
        subst ho
        exact ⟨(fun l h => by cases h), (fun p l h => by cases h)⟩
      · rw [h] at ho
        obtain ⟨hv0, hv1⟩ := hb _ _ _ hn hd
        exact ih v _ o hv0 hv1 ho
    · subst ho
      exact ⟨(fun l h => by cases h), (fun p l h => by cases h; exact ⟨h0, h1⟩)⟩

theorem randIntExcept_loop_not_noFreeNumber (g : Generator) (n : Int) (forbidden : List Int)
    (fuel : Nat) : ∀ (value : Int) (log l : Log) (a b : Int),
      Generator.randIntExcept.loop g n forbidden fuel value log ≠
        .done (.error (.noFreeNumber a b)) l := by
  induction fuel with
  | zero =>
    intro value log l a b h
    unfold Generator.randIntExcept.loop at h
    split at h <;> cases h
  | succ fuel ih =>
    intro value log l a b h
    unfold Generator.randIntExcept.loop at h
    split at h
    · simp only at h
      split at h
      · cases h
      · cases h
      · cases h
      · exact ih _ _ _ _ _ h
    · cases h

theorem randIntExcept_noFreeNumber_iff (fuel : Nat) (g : Generator) (maxExcl : Int)
    (forbidden : List Int) (log : Log) :
    (∃ a b l, g.randIntExcept fuel maxExcl forbidden log =
      .done (.error (.noFreeNumber a b)) l) ↔ maxExcl ≤ (forbidden.length : Int) := by
  constructor
  · rintro ⟨a, b, l, h⟩
    by_contra hlen
    unfold Generator.randIntExcept at h
    rw [if_neg hlen] at h
    split at h
    · cases h
    · cases h
    · cases h
    · exact randIntExcept_loop_not_noFreeNumber _ _ _ _ _ _ _ _ _ h
  · intro hlen
    refine ⟨maxExcl, forbidden.length, log, ?_⟩
    unfold Generator.randIntExcept
    rw [if_pos hlen]

theorem randIntExcept_safe {r : Reader} (hb : r.Bounded) (fuel : Nat) (n : Int)
    (forbidden : List Int) (hlen : (forbidden.length : Int) < n) (log : Log)
    (o : Run (Except Error Int))
    (ho : Generator.randIntExcept fuel ⟨some r⟩ n forbidden log = o) :
    (∀ l, o ≠ .panic l) ∧ (∀ a b l, o ≠ .done (.error (.noFreeNumber a b)) l) ∧
    (∀ p l, o = .done (.ok p) l → 0 ≤ p ∧ p < n ∧ p ∉ forbidden) := by
  have hn : 0 < n := lt_of_le_of_lt (Int.ofNat_nonneg _) hlen
  have hnot : ∀ a b l, o ≠ .done (.error (.noFreeNumber a b)) l := by
    intro a b l h
    have := (randIntExcept_noFreeNumber_iff fuel ⟨some r⟩ n forbidden log).1
      ⟨a, b, l, by rw [ho, h]⟩
    omega
  have hfree : ∀ p l, o = .done (.ok p) l → p ∉ forbidden := by
    intro p l h
    exact (randIntExcept_ok (by rw [ho, h])).1
  unfold Generator.randIntExcept at ho
  rw [if_neg (by omega)] at ho
  rcases randInt_cases r n hn log with ⟨_, h⟩ | ⟨v, hd, h⟩
  · rw [h] at ho
    subst ho
    exact ⟨(fun l h => by cases h), hnot, (fun p l h => by cases h)⟩
  · rw [h] at ho
    obtain ⟨hv0, hv1⟩ := hb _ _ _ hn hd
    obtain ⟨h1, h2⟩ := randIntExcept_loop_safe hb n hn forbidden fuel v _ o hv0 hv1 ho
    exact ⟨h1, hnot, fun p l h => ⟨(h2 p l h).1, (h2 p l h).2, hfree p l h⟩⟩

theorem fill_safe {r : Reader} (hb : r.Bounded) (fullAlphabet : List Char)
    (hs : 0 < len fullAlphabet) (hascii : len fullAlphabet = (fullAlphabet.length : Int))
    (n : Nat) : ∀ (i : Int) (resultBB : List Char) (log l : Log), 0 ≤ i →
      i.toNat + n ≤ resultBB.length →
      Generator.Generate.fill ⟨some r⟩ fullAlphabet n i resultBB log ≠ .panic l := by
  induction n with
  | zero =>
    intro i resultBB log l _ _ h
    unfold Generator.Generate.fill at h
    cases h
  | succ n ih =>
    intro i resultBB log l hi hlen h
    obtain ⟨x, l1, hx⟩ := randomElement_safe hb fullAlphabet hs hascii log
    unfold Generator.Generate.fill at h
    rw [hx] at h
    cases x with
    | error e => cases h
    | ok c =>
      have hst : store resultBB i c = some (resultBB.set i.toNat c) := by
        unfold store
        rw [if_pos ⟨hi, by omega⟩]
      simp only [hst] at h
      exact ih (i + 1) _ l1 l (by omega) (by rw [List.length_set]; omega) h

theorem repair_safe {r : Reader} (hb : r.Bounded) (fuel : Nat) (length : Int)
    (alphabets : List (List Char)) :
    (∀ a ∈ alphabets, 0 < len a ∧ len a = (a.length : Int)) →
    ∀ (resultBB : List Char) (used : List Int) (log : Log),
      (resultBB.length : Int) = length →
      (used.length : Int) + alphabets.length ≤ length →
      (∀ l, Generator.Generate.repair fuel ⟨some r⟩ length alphabets resultBB used log ≠
        .panic l) ∧
      (∀ a x y l, Generator.Generate.repair fuel ⟨some r⟩ length alphabets resultBB used log ≠
        .done (.error (.position a (.noFreeNumber x y))) l) := by
  induction alphabets with
  | nil =>
    intro _ resultBB used log _ _
    unfold Generator.Generate.repair
    exact ⟨(fun l h => by cases h), (fun a x y l h => by cases h)⟩
  | cons alphabet rest ih =>
    intro hal resultBB used log hbb hcount
    have ha := hal alphabet (List.mem_cons_self _ _)
    simp only [List.length_cons] at hcount
    push_cast at hcount
    obtain ⟨x, l1, hx⟩ := randomElement_safe hb alphabet ha.1 ha.2 log
    unfold Generator.Generate.repair
    rw [hx]
    cases x with
    | error e => exact ⟨(fun l h => by cases h), (fun a x y l h => by cases h)⟩
    | ok c =>
      simp only
      obtain ⟨hp1, hp2, hp3⟩ := randIntExcept_safe hb fuel length used (by omega) l1 _ rfl
      cases hpos : Generator.randIntExcept fuel ⟨some r⟩ length used l1 with
      | panic l2 => exact absurd hpos (hp1 l2)
      | running l2 => exact ⟨(fun l h => by cases h), (fun a x y l h => by cases h)⟩
      | done res l2 =>
        cases res with
        | error e =>
          refine ⟨(fun l h => by cases h), fun a x y l h => ?_⟩
          simp only at h
          cases h
          exact hp2 _ _ _ hpos
        | ok p =>
          obtain ⟨hp0, hplt, hpu⟩ := hp3 p l2 hpos
          have hst : store resultBB p c = some (resultBB.set p.toNat c) := by
            unfold store
            rw [if_pos ⟨hp0, by omega⟩]
          simp only [hst]
          exact ih (fun a h => hal a (List.mem_cons_of_mem _ h)) _ _ l2
            (by rw [List.length_set]; exact hbb)
            (by rw [List.length_insert_of_not_mem hpu]; push_cast; omega)

theorem pickLength_bounded {r : Reader} (hb : r.Bounded) (policy : Policy) (log l : Log)
    (length : Int) (h0 : 0 ≤ policy.MinLength) (hle : policy.MinLength ≤ policy.MaxLength)
    (hint : policy.MaxLength < 2 ^ 63)
    (h : Generator.pickLength ⟨some r⟩ policy log = .done (.ok length) l) :
    policy.MinLength ≤ length ∧ length ≤ policy.MaxLength := by
  unfold Generator.pickLength at h
  split at h
  · cases h
    exact ⟨le_refl _, hle⟩
  · simp only at h
    split at h
    · cases h
    · cases h
    · cases h
    · next v l1 hdraw =>
      cases h
      obtain ⟨hpos, r', hr', hd, _⟩ := randInt_ok hdraw
      cases hr'
      obtain ⟨hv0, hv1⟩ := hb _ _ _ hpos hd
      unfold wrapInt at hpos hv1 ⊢
      omega

theorem fill_error (g : Generator) (fullAlphabet : List Char) (n : Nat) :
    ∀ (i : Int) (resultBB : List Char) (log l : Log) (e : Error),
      Generator.Generate.fill g fullAlphabet n i resultBB log = .done (.error e) l →
      ∃ j cause, e = .fill fullAlphabet j cause := by
  induction n with
  | zero =>
    intro i resultBB log l e h
    unfold Generator.Generate.fill at h
    cases h
  | succ n ih =>
    intro i resultBB log l e h
    unfold Generator.Generate.fill at h
    split at h
    · cases h
    · cases h
    · cases h
      exact ⟨_, _, rfl⟩
    · split at h
      · cases h
      · exact ih _ _ _ _ _ h

/-- C16: `randIntExcept` returns its no-free-number error exactly when
`maxExcl` is at most the number of forbidden numbers.  For a policy that passes
`Validate` with `MinLength ≤ MaxLength` (values of type `int`) and a reader
whose successful draws are in range, the picked length is at least the number of
required alphabets, each placement of the repair step finds fewer used positions
than `length` and adds exactly one, the repair step started with `i` used
positions and at most `length - i` alphabets never meets that error nor an index
out of range, the filler loop on the allocated buffer never meets an index out
of range, and so `Generate` never returns that error and can only crash inside
`pickLength` (`rand.Int` asked for a bound that is not positive) or in `make`
(the picked length cannot be allocated), never on a buffer or alphabet index. -/
theorem noFreeNumber_unreachable (maxAlloc : Int) (fuel : Nat) (r : Reader) (policy : Policy)
    (log : Log)
    (hvalid : policy.Validate = none) (hle : policy.MinLength ≤ policy.MaxLength)
    (hint : policy.MaxLength < 2 ^ 63) (hb : r.Bounded) :
    (∀ (g : Generator) (maxExcl : Int) (forbidden : List Int) (log' : Log),
      (∃ a b l, g.randIntExcept fuel maxExcl forbidden log' =
        .done (.error (.noFreeNumber a b)) l) ↔ maxExcl ≤ (forbidden.length : Int)) ∧
    (∀ (g : Generator) (length : Int) (alphabet : List Char) (rest : List (List Char))
      (resultBB : List Char) (used : List Int) (log' l1 l2 : Log) (c : Char) (p : Int),
      g.randomElement alphabet log' = .done (.ok c) l1 →
      g.randIntExcept fuel length used l1 = .done (.ok p) l2 →
      (used.length : Int) < length ∧ p ∉ used ∧
      (List.insert p used).length = used.length + 1 ∧
      Generator.Generate.repair fuel g length (alphabet :: rest) resultBB used log' =
        match store resultBB p c with
        | none => .panic l2
        | some bb => Generator.Generate.repair fuel g length rest bb (List.insert p used) l2) ∧
    (∀ (length : Int) (l : Log),
      Generator.pickLength ⟨some r⟩ policy log = .done (.ok length) l →
      (policy.getRequiredAlphabets.length : Int) ≤ length) ∧
    (∀ (length : Int) (alphabets : List (List Char)) (resultBB : List Char)
      (used : List Int) (log' : Log),
      (∀ a ∈ alphabets, a ∈ policy.getRequiredAlphabets) →
      (resultBB.length : Int) = length →
      (used.length : Int) + alphabets.length ≤ length →
      (∀ l, Generator.Generate.repair fuel ⟨some r⟩ length alphabets resultBB used log' ≠
        .panic l) ∧
      (∀ a x y l, Generator.Generate.repair fuel ⟨some r⟩ length alphabets resultBB used log' ≠
        .done (.error (.position a (.noFreeNumber x y))) l)) ∧
    (∀ (length : Int) (l1 : Log) (bb0 : List Char),
      Generator.pickLength ⟨some r⟩ policy log = .done (.ok length) l1 →
      makeBytes maxAlloc length = some bb0 →
      ∀ l, Generator.Generate.fill ⟨some r⟩ policy.getFullAlphabet length.toNat 0 bb0 l1 ≠
        .panic l) ∧
    (∀ s a x y l, Generator.Generate maxAlloc fuel ⟨some r⟩ policy log ≠
      .done (s, some (.position a (.noFreeNumber x y))) l) ∧
    (∀ l, Generator.Generate maxAlloc fuel ⟨some r⟩ policy log = .panic l →
      Generator.pickLength ⟨some r⟩ policy log = .panic l ∨
      ∃ length, Generator.pickLength ⟨some r⟩ policy log = .done (.ok length) l ∧
        makeBytes maxAlloc length = none) := by
  have hdti : policy.differentTypesIncluded ≤ policy.MinLength := by
    unfold Policy.Validate at hvalid
    split at hvalid
    · cases hvalid
    · omega
  have hreq := length_getRequiredAlphabets policy
  have hlen : ∀ (length : Int) (l : Log),
      Generator.pickLength ⟨some r⟩ policy log = .done (.ok length) l →
      (policy.getRequiredAlphabets.length : Int) ≤ length := by
    intro length l h
    have := (pickLength_bounded hb policy log l length (by omega) hle hint h).1
    omega
  have hgen : ∀ (P : Log → Prop),
      (∀ l1, Generator.pickLength ⟨some r⟩ policy log = .panic l1 → P l1) →
      (∀ length l1, Generator.pickLength ⟨some r⟩ policy log = .done (.ok length) l1 →
        makeBytes maxAlloc length = none → P l1) →
      ∀ o, Generator.Generate maxAlloc fuel ⟨some r⟩ policy log = o →
      (∀ s a x y l, o ≠ .done (s, some (.position a (.noFreeNumber x y))) l) ∧
      (∀ l, o = .panic l → P l) := by
    intro P hP1 hP2 o ho
    unfold Generator.Generate at ho
    simp only [hvalid] at ho
    cases hpl : Generator.pickLength ⟨some r⟩ policy log with
    | panic l1 =>
      rw [hpl] at ho
      subst ho
      exact ⟨(fun s a x y l h => by cases h), (fun l h => by cases h; exact hP1 _ hpl)⟩
    | running l1 =>
      rw [hpl] at ho
      subst ho
      exact ⟨(fun s a x y l h => by cases h), (fun l h => by cases h)⟩
    | done res l1 =>
      rw [hpl] at ho
      cases res with
      | error e =>
        subst ho
        exact ⟨(fun s a x y l h => by cases h), (fun l h => by cases h)⟩
      | ok length =>
        have hk := hlen length l1 hpl
        by_cases hbig : maxAlloc < length
        · have hno : makeBytes maxAlloc length = none := by
            unfold makeBytes
            rw [if_pos (Or.inr hbig)]
          simp only [hno] at ho
          subst ho
          exact ⟨(fun s a x y l h => by cases h),
            (fun l h => by cases h; exact hP2 _ _ hpl hno)⟩
        have hmk : makeBytes maxAlloc length =
            some (List.replicate length.toNat (Char.ofNat 0)) := by
          unfold makeBytes
          rw [if_neg (by omega)]
        simp only [hmk] at ho
        have hfa := fullAlphabet_indexable policy
        cases hfill : Generator.Generate.fill ⟨some r⟩ policy.getFullAlphabet length.toNat 0
            (List.replicate length.toNat (Char.ofNat 0)) l1 with
        | panic l2 =>
          exact absurd hfill (fill_safe hb _ hfa.1 hfa.2 _ _ _ _ _ (le_refl 0) (by simp))
        | running l2 =>
          rw [hfill] at ho
          subst ho
          exact ⟨(fun s a x y l h => by cases h), (fun l h => by cases h)⟩
        | done res2 l2 =>
          rw [hfill] at ho
          cases res2 with
          | error e =>
            obtain ⟨j, cause, rfl⟩ := fill_error _ _ _ _ _ _ _ _ hfill
            subst ho
            exact ⟨(fun s a x y l h => by cases h), (fun l h => by cases h)⟩
          | ok bb1 =>
            have hbb1 : bb1.length = length.toNat := by
              rw [(fill_ok _ _ _ _ _ _ _ _ (le_refl 0) hfill).1, List.length_replicate]
            obtain ⟨hs1, hs2⟩ := repair_safe hb fuel length policy.getRequiredAlphabets
              (required_indexable policy) bb1 [] l2 (by omega)
              (by simp only [List.length_nil]; omega)
            cases hrep : Generator.Generate.repair fuel ⟨some r⟩ length
                policy.getRequiredAlphabets bb1 [] l2 with
            | panic l3 => exact absurd hrep (hs1 l3)
            | running l3 =>
              simp only [hrep] at ho
              subst ho
              exact ⟨(fun s a x y l h => by cases h), (fun l h => by cases h)⟩
            | done res3 l3 =>
              simp only [hrep] at ho
              cases res3 with
              | error e =>
                subst ho
                refine ⟨fun s a x y l h => ?_, (fun l h => by cases h)⟩
                cases h
                exact hs2 _ _ _ _ hrep
              | ok out =>
                subst ho
                exact ⟨(fun s a x y l h => by cases h), (fun l h => by cases h)⟩
  have hgen' := hgen
    (fun l => Generator.pickLength ⟨some r⟩ policy log = .panic l ∨
      ∃ length, Generator.pickLength ⟨some r⟩ policy log = .done (.ok length) l ∧
        makeBytes maxAlloc length = none)
    (fun l1 h => Or.inl h) (fun length l1 h hno => Or.inr ⟨length, h, hno⟩) _ rfl
  refine ⟨fun g maxExcl forbidden log' => randIntExcept_noFreeNumber_iff fuel g maxExcl
    forbidden log', ?_, hlen, ?_, ?_, hgen'.1, hgen'.2⟩
  · intro g length alphabet rest resultBB used log' l1 l2 c p hc hp
    obtain ⟨hpu, hfree⟩ := randIntExcept_ok hp
    refine ⟨hfree, hpu, List.length_insert_of_not_mem hpu, ?_⟩
    conv_lhs => unfold Generator.Generate.repair
    simp only [hc, hp]
  swap
  · intro length l1 bb0 _ hmk l
    obtain ⟨_, hbb0⟩ := makeBytes_some hmk
    have hfa := fullAlphabet_indexable policy
    exact fill_safe hb _ hfa.1 hfa.2 _ _ _ _ _ (le_refl 0) (by omega)
  intro length alphabets resultBB used log' hsub hbb hcount
  exact repair_safe hb fuel length alphabets
    (fun a ha => required_indexable policy a (hsub a ha)) resultBB used log' hbb hcount

theorem counterReader_bounded : counterReader.Bounded := by
  intro k n v hn hd
  simp only [counterReader, Option.some.injEq] at hd
  subst hd
  exact ⟨Int.emod_nonneg _ (by omega), Int.emod_lt_of_pos _ hn⟩

theorem noFreeNumber_unreachable_witness :
    (∀ s a x y l, Generator.Generate (2 ^ 48) 10 ⟨some counterReader⟩
        ⟨4, 6, true, true, true, true⟩ [] ≠
      .done (s, some (.position a (.noFreeNumber x y))) l) ∧
    (∀ l, Generator.Generate (2 ^ 48) 10 ⟨some counterReader⟩ ⟨4, 6, true, true, true, true⟩ [] =
        .panic l →
      Generator.pickLength ⟨some counterReader⟩ ⟨4, 6, true, true, true, true⟩ [] =
        .panic l ∨
      ∃ length, Generator.pickLength ⟨some counterReader⟩ ⟨4, 6, true, true, true, true⟩ [] =
          .done (.ok length) l ∧
        makeBytes (2 ^ 48) length = none) :=
  (noFreeNumber_unreachable (2 ^ 48) 10 counterReader ⟨4, 6, true, true, true, true⟩ []
    (by decide) (by decide) (by decide) counterReader_bounded).2.2.2.2.2

/-! ## Determinism -/

theorem Run.Similar.similar_done {α : Type} (log1 log2 : Log) (a : α) :
    Run.Similar log1 log2 (.done a log1) (.done a log2) :=
  ⟨[], Or.inl ⟨a, rfl, rfl⟩⟩

theorem Run.Similar.similar_panic {α : Type} (log1 log2 : Log) :
    Run.Similar log1 log2 (.panic log1 : Run α) (.panic log2) :=
  ⟨[], Or.inr (Or.inl ⟨rfl, rfl⟩)⟩

theorem Run.Similar.similar_running {α : Type} (log1 log2 : Log) :
    Run.Similar log1 log2 (.running log1 : Run α) (.running log2) :=
  ⟨[], Or.inr (Or.inr ⟨rfl, rfl⟩)⟩

theorem Run.Similar.similar_append {α : Type} {log1 log2 : Log} {o1 o2 : Run α} (new : Log)
    (h : Run.Similar (new ++ log1) (new ++ log2) o1 o2) : Run.Similar log1 log2 o1 o2 := by
  obtain ⟨new', h⟩ := h
  refine ⟨new' ++ new, ?_⟩
  simpa only [List.append_assoc] using h

theorem Reader.AgreeFrom.agree_append {r1 r2 : Reader} {log : Log} (new : Log)
    (h : r1.AgreeFrom r2 log.length) : r1.AgreeFrom r2 (new ++ log).length := by
  intro k n hk
  apply h
  rw [List.length_append] at hk
  omega

theorem length_append_eq {log1 log2 : Log} (new : Log) (h : log1.length = log2.length) :
    (new ++ log1).length = (new ++ log2).length := by
  simp [h]

theorem randInt_similar {r1 r2 : Reader} {log1 log2 : Log} (hlen : log1.length = log2.length)
    (hag : r1.AgreeFrom r2 log1.length) (n : Int) :
    Run.Similar log1 log2 (Generator.randInt ⟨some r1⟩ n log1)
      (Generator.randInt ⟨some r2⟩ n log2) := by
  unfold Generator.randInt
  by_cases hn : n ≤ 0
  · rw [if_pos hn, if_pos hn]
    exact Run.Similar.similar_panic _ _
  · rw [if_neg hn, if_neg hn]
    simp only
    rw [← hlen, ← hag log1.length n (le_refl _)]
    cases r1.draw log1.length n with
    | none => exact ⟨[⟨n, none⟩], Or.inl ⟨_, rfl, rfl⟩⟩
    | some v => exact ⟨[⟨n, some v⟩], Or.inl ⟨_, rfl, rfl⟩⟩

theorem randomElement_similar {r1 r2 : Reader} {log1 log2 : Log}
    (hlen : log1.length = log2.length) (hag : r1.AgreeFrom r2 log1.length) (s : List Char) :
    Run.Similar log1 log2 (Generator.randomElement ⟨some r1⟩ s log1)
      (Generator.randomElement ⟨some r2⟩ s log2) := by
  obtain ⟨new, h⟩ := randInt_similar hlen hag (len s)
  unfold Generator.randomElement
  rcases h with ⟨a, h1, h2⟩ | ⟨h1, h2⟩ | ⟨h1, h2⟩
  · rw [h1, h2]
    cases a with
    | error e => exact ⟨new, Or.inl ⟨_, rfl, rfl⟩⟩
    | ok v =>
      simp only
      cases index s v with
      | none => exact ⟨new, Or.inr (Or.inl ⟨rfl, rfl⟩)⟩
      | some c => exact ⟨new, Or.inl ⟨_, rfl, rfl⟩⟩
  · rw [h1, h2]
    exact ⟨new, Or.inr (Or.inl ⟨rfl, rfl⟩)⟩
  · rw [h1, h2]
    exact ⟨new, Or.inr (Or.inr ⟨rfl, rfl⟩)⟩

theorem pickLength_similar {r1 r2 : Reader} {log1 log2 : Log}
    (hlen : log1.length = log2.length) (hag : r1.AgreeFrom r2 log1.length) (policy : Policy) :
    Run.Similar log1 log2 (Generator.pickLength ⟨some r1⟩ policy log1)
      (Generator.pickLength ⟨some r2⟩ policy log2) := by
  unfold Generator.pickLength
  by_cases heq : policy.MinLength = policy.MaxLength
  · rw [if_pos heq, if_pos heq]
    exact Run.Similar.similar_done _ _ _
  · rw [if_neg heq, if_neg heq]
    obtain ⟨new, h⟩ :=
      randInt_similar hlen hag (wrapInt (policy.MaxLength - policy.MinLength + 1))
    simp only
    rcases h with ⟨a, h1, h2⟩ | ⟨h1, h2⟩ | ⟨h1, h2⟩
    · rw [h1, h2]
      cases a with
      | error e => exact ⟨new, Or.inl ⟨_, rfl, rfl⟩⟩
      | ok v => exact ⟨new, Or.inl ⟨_, rfl, rfl⟩⟩
    · rw [h1, h2]
      exact ⟨new, Or.inr (Or.inl ⟨rfl, rfl⟩)⟩
    · rw [h1, h2]
      exact ⟨new, Or.inr (Or.inr ⟨rfl, rfl⟩)⟩

theorem randIntExcept_loop_similar {r1 r2 : Reader} (n : Int) (forbidden : List Int)
    (fuel : Nat) : ∀ (value : Int) (log1 log2 : Log), log1.length = log2.length →
      r1.AgreeFrom r2 log1.length →
      Run.Similar log1 log2
        (Generator.randIntExcept.loop ⟨some r1⟩ n forbidden fuel value log1)
        (Generator.randIntExcept.loop ⟨some r2⟩ n forbidden fuel value log2) := by
  induction fuel with
  | zero =>
    intro value log1 log2 hlen hag
    unfold Generator.randIntExcept.loop
    by_cases hv : isIntInSet value forbidden = true
    · rw [if_pos hv, if_pos hv]
      exact Run.Similar.similar_running _ _
    · rw [if_neg hv, if_neg hv]
      exact Run.Similar.similar_done _ _ _
  | succ fuel ih =>
    intro value log1 log2 hlen hag
    unfold Generator.randIntExcept.loop
    by_cases hv : isIntInSet value forbidden = true
    · rw [if_pos hv, if_pos hv]
      obtain ⟨new, h⟩ := randInt_similar hlen hag n
      simp only
      rcases h with ⟨a, h1, h2⟩ | ⟨h1, h2⟩ | ⟨h1, h2⟩
      · rw [h1, h2]
        cases a with
        | error e => exact ⟨new, Or.inl ⟨_, rfl, rfl⟩⟩
        | ok v =>
          simp only
          exact (ih v _ _ (length_append_eq new hlen) (hag.agree_append new)).similar_append _
      · rw [h1, h2]
        exact ⟨new, Or.inr (Or.inl ⟨rfl, rfl⟩)⟩
      · rw [h1, h2]
        exact ⟨new, Or.inr (Or.inr ⟨rfl, rfl⟩)⟩
    · rw [if_neg hv, if_neg hv]
      exact Run.Similar.similar_done _ _ _

theorem randIntExcept_similar {r1 r2 : Reader} {log1 log2 : Log}
    (hlen : log1.length = log2.length) (hag : r1.AgreeFrom r2 log1.length) (fuel : Nat)
    (n : Int) (forbidden : List Int) :
    Run.Similar log1 log2 (Generator.randIntExcept fuel ⟨some r1⟩ n forbidden log1)
      (Generator.randIntExcept fuel ⟨some r2⟩ n forbidden log2) := by
  unfold Generator.randIntExcept
  by_cases hn : n ≤ (forbidden.length : Int)
  · rw [if_pos hn, if_pos hn]
    exact Run.Similar.similar_done _ _ _
  · rw [if_neg hn, if_neg hn]
    obtain ⟨new, h⟩ := randInt_similar hlen hag n
    rcases h with ⟨a, h1, h2⟩ | ⟨h1, h2⟩ | ⟨h1, h2⟩
    · rw [h1, h2]
      cases a with
      | error e => exact ⟨new, Or.inl ⟨_, rfl, rfl⟩⟩
      | ok v =>
        simp only
        exact (randIntExcept_loop_similar n forbidden fuel v _ _
          (length_append_eq new hlen) (hag.agree_append new)).similar_append _
    · rw [h1, h2]
      exact ⟨new, Or.inr (Or.inl ⟨rfl, rfl⟩)⟩
    · rw [h1, h2]
      exact ⟨new, Or.inr (Or.inr ⟨rfl, rfl⟩)⟩

theorem fill_similar {r1 r2 : Reader} (fullAlphabet : List Char) (n : Nat) :
    ∀ (i : Int) (resultBB : List Char) (log1 log2 : Log), log1.length = log2.length →
      r1.AgreeFrom r2 log1.length →
      Run.Similar log1 log2
        (Generator.Generate.fill ⟨some r1⟩ fullAlphabet n i resultBB log1)
        (Generator.Generate.fill ⟨some r2⟩ fullAlphabet n i resultBB log2) := by
  induction n with
  | zero =>
    intro i resultBB log1 log2 _ _
    exact Run.Similar.similar_done _ _ _
  | succ n ih =>
    intro i resultBB log1 log2 hlen hag
    obtain ⟨new, h⟩ := randomElement_similar hlen hag fullAlphabet
    unfold Generator.Generate.fill
    rcases h with ⟨a, h1, h2⟩ | ⟨h1, h2⟩ | ⟨h1, h2⟩
    · rw [h1, h2]
      cases a with
      | error e => exact ⟨new, Or.inl ⟨_, rfl, rfl⟩⟩
      | ok c =>
        simp only
        cases store resultBB i c with
        | none => exact ⟨new, Or.inr (Or.inl ⟨rfl, rfl⟩)⟩
        | some bb =>
          exact (ih (i + 1) bb _ _ (length_append_eq new hlen) (hag.agree_append new)).similar_append _
    · rw [h1, h2]
      exact ⟨new, Or.inr (Or.inl ⟨rfl, rfl⟩)⟩
    · rw [h1, h2]
      exact ⟨new, Or.inr (Or.inr ⟨rfl, rfl⟩)⟩

theorem repair_similar {r1 r2 : Reader} (fuel : Nat) (length : Int)
    (alphabets : List (List Char)) :
    ∀ (resultBB : List Char) (used : List Int) (log1 log2 : Log),
      log1.length = log2.length → r1.AgreeFrom r2 log1.length →
      Run.Similar log1 log2
        (Generator.Generate.repair fuel ⟨some r1⟩ length alphabets resultBB used log1)
        (Generator.Generate.repair fuel ⟨some r2⟩ length alphabets resultBB used log2) := by
  induction alphabets with
  | nil =>
    intro resultBB used log1 log2 _ _
    exact Run.Similar.similar_done _ _ _
  | cons alphabet rest ih =>
    intro resultBB used log1 log2 hlen hag
    obtain ⟨new, h⟩ := randomElement_similar hlen hag alphabet
    unfold Generator.Generate.repair
    rcases h with ⟨a, h1, h2⟩ | ⟨h1, h2⟩ | ⟨h1, h2⟩
    · rw [h1, h2]
      cases a with
      | error e => exact ⟨new, Or.inl ⟨_, rfl, rfl⟩⟩
      | ok c =>
        simp only
        have hlen' := length_append_eq new hlen
        have hag' := hag.agree_append new
        obtain ⟨new2, h'⟩ := randIntExcept_similar hlen' hag' fuel length used
        refine Run.Similar.similar_append new ?_
        rcases h' with ⟨a', h1', h2'⟩ | ⟨h1', h2'⟩ | ⟨h1', h2'⟩
        · rw [h1', h2']
          cases a' with
          | error e => exact ⟨new2, Or.inl ⟨_, rfl, rfl⟩⟩
          | ok p =>
            simp only
            cases store resultBB p c with
            | none => exact ⟨new2, Or.inr (Or.inl ⟨rfl, rfl⟩)⟩
            | some bb =>
              exact (ih bb _ _ _ (length_append_eq new2 hlen') (hag'.agree_append new2)).similar_append _
        · rw [h1', h2']
          exact ⟨new2, Or.inr (Or.inl ⟨rfl, rfl⟩)⟩
        · rw [h1', h2']
          exact ⟨new2, Or.inr (Or.inr ⟨rfl, rfl⟩)⟩
    · rw [h1, h2]
      exact ⟨new, Or.inr (Or.inl ⟨rfl, rfl⟩)⟩
    · rw [h1, h2]
      exact ⟨new, Or.inr (Or.inr ⟨rfl, rfl⟩)⟩

theorem Generate_similar {maxAlloc : Int} {r1 r2 : Reader} {log1 log2 : Log}
    (hlen : log1.length = log2.length) (hag : r1.AgreeFrom r2 log1.length) (fuel : Nat)
    (policy : Policy) :
    Run.Similar log1 log2 (Generator.Generate maxAlloc fuel ⟨some r1⟩ policy log1)
      (Generator.Generate maxAlloc fuel ⟨some r2⟩ policy log2) := by
  unfold Generator.Generate
  simp only
  cases policy.Validate with
  | some err => exact Run.Similar.similar_done _ _ _
  | none =>
    simp only
    obtain ⟨new, h⟩ := pickLength_similar hlen hag policy
    rcases h with ⟨a, h1, h2⟩ | ⟨h1, h2⟩ | ⟨h1, h2⟩
    · rw [h1, h2]
      cases a with
      | error e => exact ⟨new, Or.inl ⟨_, rfl, rfl⟩⟩
      | ok length =>
        simp only
        cases makeBytes maxAlloc length with
        | none => exact ⟨new, Or.inr (Or.inl ⟨rfl, rfl⟩)⟩
        | some bb0 =>
          simp only
          have hlen' := length_append_eq new hlen
          have hag' := hag.agree_append new
          refine Run.Similar.similar_append new ?_
          obtain ⟨new2, h'⟩ :=
            fill_similar policy.getFullAlphabet length.toNat 0 bb0 _ _ hlen' hag'
          rcases h' with ⟨a', h1', h2'⟩ | ⟨h1', h2'⟩ | ⟨h1', h2'⟩
          · rw [h1', h2']
            cases a' with
            | error e => exact ⟨new2, Or.inl ⟨_, rfl, rfl⟩⟩
            | ok bb1 =>
              simp only
              have hlen2 := length_append_eq new2 hlen'
              have hag2 := hag'.agree_append new2
              refine Run.Similar.similar_append new2 ?_
              obtain ⟨new3, h3⟩ := repair_similar fuel length policy.getRequiredAlphabets
                bb1 [] _ _ hlen2 hag2
              rcases h3 with ⟨a3, h13, h23⟩ | ⟨h13, h23⟩ | ⟨h13, h23⟩
              · rw [h13, h23]
                cases a3 with
                | error e => exact ⟨new3, Or.inl ⟨_, rfl, rfl⟩⟩
                | ok out => exact ⟨new3, Or.inl ⟨_, rfl, rfl⟩⟩
              · rw [h13, h23]
                exact ⟨new3, Or.inr (Or.inl ⟨rfl, rfl⟩)⟩
              · rw [h13, h23]
                exact ⟨new3, Or.inr (Or.inr ⟨rfl, rfl⟩)⟩
          · rw [h1', h2']
            exact ⟨new2, Or.inr (Or.inl ⟨rfl, rfl⟩)⟩
          · rw [h1', h2']
            exact ⟨new2, Or.inr (Or.inr ⟨rfl, rfl⟩)⟩
    · rw [h1, h2]
      exact ⟨new, Or.inr (Or.inl ⟨rfl, rfl⟩)⟩
    · rw [h1, h2]
      exact ⟨new, Or.inr (Or.inr ⟨rfl, rfl⟩)⟩

theorem randIntExcept_loop_mono (g : Generator) (n : Int) (forbidden : List Int)
    (fuel : Nat) : ∀ (fuel' : Nat) (value : Int) (log l : Log) (x : Except Error Int),
      fuel ≤ fuel' →
      Generator.randIntExcept.loop g n forbidden fuel value log = .done x l →
      Generator.randIntExcept.loop g n forbidden fuel' value log = .done x l := by
  induction fuel with
  | zero =>
    intro fuel' value log l x _ h
    unfold Generator.randIntExcept.loop at h
    split at h
    · cases h
    · next hv =>
      cases h
      unfold Generator.randIntExcept.loop
      rw [if_neg hv]
  | succ fuel ih =>
    intro fuel' value log l x hle h
    obtain ⟨f', rfl⟩ : ∃ f', fuel' = f' + 1 := ⟨fuel' - 1, by omega⟩
    unfold Generator.randIntExcept.loop at h ⊢
    split at h
    · next hv =>
      rw [if_pos hv]
      try simp only at h ⊢
      split at h
      · cases h
      · cases h
      · next heq =>
        try rw [heq]
        exact h
      · next heq =>
        try rw [heq]
        exact ih f' _ _ _ _ (by omega) h
    · next hv =>
      rw [if_neg hv]
      exact h

theorem randIntExcept_mono {fuel fuel' : Nat} (hle : fuel ≤ fuel') (g : Generator) (n : Int)
    (forbidden : List Int) (log l : Log) (x : Except Error Int)
    (h : g.randIntExcept fuel n forbidden log = .done x l) :
    g.randIntExcept fuel' n forbidden log = .done x l := by
  unfold Generator.randIntExcept at h ⊢
  split at h
  · next hn =>
    rw [if_pos hn]
    exact h
  · next hn =>
    rw [if_neg hn]
    split at h
    · cases h
    · cases h
    · next heq =>
      try rw [heq]
      exact h
    · next heq =>
      try rw [heq]
      exact randIntExcept_loop_mono _ _ _ _ _ _ _ _ _ hle h

theorem repair_mono {fuel fuel' : Nat} (hle : fuel ≤ fuel') (g : Generator) (length : Int)
    (alphabets : List (List Char)) :
    ∀ (resultBB : List Char) (used : List Int) (log l : Log) (x : Except Error (List Char)),
      Generator.Generate.repair fuel g length alphabets resultBB used log = .done x l →
      Generator.Generate.repair fuel' g length alphabets resultBB used log = .done x l := by
  induction alphabets with
  | nil =>
    intro resultBB used log l x h
    unfold Generator.Generate.repair at h ⊢
    exact h
  | cons alphabet rest ih =>
    intro resultBB used log l x h
    unfold Generator.Generate.repair at h ⊢
    split at h
    · cases h
    · cases h
    · next heq =>
      try rw [heq]
      exact h
    · next c l1 heq =>
      try rw [heq]
      try simp only
      split at h
      · cases h
      · cases h
      · next heq2 =>
        rw [randIntExcept_mono hle _ _ _ _ _ _ heq2]
        exact h
      · next p l2 heq2 =>
        rw [randIntExcept_mono hle _ _ _ _ _ _ heq2]
        try simp only
        split at h
        · cases h
        · next bb hst =>
          try rw [hst]
          exact ih _ _ _ _ _ h

theorem Generate_mono {maxAlloc : Int} {fuel fuel' : Nat} (hle : fuel ≤ fuel') (g : Generator)
    (policy : Policy) (log l : Log) (x : List Char × Option Error)
    (h : g.Generate maxAlloc fuel policy log = .done x l) :
    g.Generate maxAlloc fuel' policy log = .done x l := by
  unfold Generator.Generate at h ⊢
  split at h
  · exact h
  · split at h
    · exact h
    · split at h
      · cases h
      · cases h
      · exact h
      · split at h
        · cases h
        · split at h
          · cases h
          · cases h
          · exact h
          · next bb1 l2 hfill =>
            split at h
            · cases h
            · cases h
            · next heq =>
              rw [repair_mono hle _ _ _ _ _ _ _ _ heq]
              exact h
            · next heq =>
              rw [repair_mono hle _ _ _ _ _ _ _ _ heq]
              exact h

/-- C14: determinism under a fixed sequence of draws.  Two runs of `Generate`
for the same policy whose sources are at the same position and give the same
draws from there on end the same way: both return the same password, or both the
same error, after the same draws (or both panic, or both are still redrawing).
The result does not depend on the iteration budget either: whenever both runs
return, under any budgets, they return the same pair. -/
theorem Generate_deterministic (maxAlloc : Int) (policy : Policy) (r1 r2 : Reader) (log1 log2 : Log)
    (hlen : log1.length = log2.length) (hag : r1.AgreeFrom r2 log1.length) :
    (∀ fuel : Nat, Run.Similar log1 log2 (Generator.Generate maxAlloc fuel ⟨some r1⟩ policy log1)
      (Generator.Generate maxAlloc fuel ⟨some r2⟩ policy log2)) ∧
    (∀ (fuel1 fuel2 : Nat) (res1 res2 : List Char × Option Error) (l1 l2 : Log),
      Generator.Generate maxAlloc fuel1 ⟨some r1⟩ policy log1 = .done res1 l1 →
      Generator.Generate maxAlloc fuel2 ⟨some r2⟩ policy log2 = .done res2 l2 →
      res1 = res2 ∧ ∃ new : Log, l1 = new ++ log1 ∧ l2 = new ++ log2) := by
  refine ⟨fun fuel => Generate_similar hlen hag fuel policy, ?_⟩
  intro fuel1 fuel2 res1 res2 l1 l2 h1 h2
  have h1' := Generate_mono (le_max_left fuel1 fuel2) _ _ _ _ _ h1
  have h2' := Generate_mono (le_max_right fuel1 fuel2) _ _ _ _ _ h2
  obtain ⟨new, h⟩ := Generate_similar hlen hag (max fuel1 fuel2) policy
  rw [h1', h2'] at h
  rcases h with ⟨a, e1, e2⟩ | ⟨e1, _⟩ | ⟨e1, _⟩
  · cases e1
    cases e2
    exact ⟨rfl, new, rfl, rfl⟩
  · cases e1
  · cases e1

theorem skipReader_agree : counterReader.AgreeFrom skipReader 1 := by
  intro k n hk
  have : k ≠ 0 := by omega
  simp [counterReader, skipReader, this]

theorem Generate_deterministic_witness :
    Run.Similar [⟨5, some 1⟩] [⟨7, none⟩]
      (Generator.Generate (2 ^ 48) 10 ⟨some counterReader⟩ ⟨2, 5, true, false, true, false⟩
        [⟨5, some 1⟩])
      (Generator.Generate (2 ^ 48) 10 ⟨some skipReader⟩ ⟨2, 5, true, false, true, false⟩
        [⟨7, none⟩]) :=
  (Generate_deterministic (2 ^ 48) ⟨2, 5, true, false, true, false⟩ counterReader skipReader
    [⟨5, some 1⟩] [⟨7, none⟩] rfl skipReader_agree).1 10

end Passwords
